import Mathlib

/-!
# Verification of the grouping/caching core of the `vscode-ado` extension

A shallow embedding of `src/grouping/GroupingEngine.ts`, the settings layer
`Settings.groupBy` of `src/config/Settings.ts`, and the refresh logic of
`src/tree/AdoTreeProvider.ts`, together with theorems about them.

Modelling conventions:
* Work-item field values are the JSON-shaped values delivered by the
  retrieval layer (strings, integer numbers, booleans, identity objects,
  null/absent).  JavaScript `Date` objects never occur as field values.
* JavaScript's ambient clock is made explicit: every function that the
  source derives from `new Date()` takes the current local calendar day
  (as a day ordinal, local midnight) as an explicit `today : Int` argument.
* `Array.prototype.sort(cmp)` is modelled as a stable comparator sort
  (`jsSortBy`), matching the ECMAScript guarantee of a stable sort ordered
  by the comparator.
* The local time zone is modelled as UTC; date strings are ISO
  `YYYY-MM-DD` with an optional `THH:MM[:SS[.mmm]][Z]` suffix.  `parseFloat`
  is modelled over exact rationals (no `Infinity` literal, no hex).
-/

/-- A work-item field value as delivered by the JSON-based retrieval layer. -/
inductive FieldValue where
  | vNull : FieldValue
  | vUndefined : FieldValue
  | vStr : String → FieldValue
  | vNum : Int → FieldValue
  | vBool : Bool → FieldValue
  | vObj : List (String × FieldValue) → FieldValue

/-- `WorkItem` of `src/ado/AdoClient.ts`: an id, a field map, and optional
URL data (`url` and `_links.html.href`). -/
structure WorkItem where
  id : Nat
  fields : List (String × FieldValue)
  url : Option String
  linksHtmlHref : Option String

/-- `GroupSpec` of `src/config/Settings.ts`: one grouping level. -/
structure GroupSpec where
  field : String
  projection : Option String
  missingLabel : Option String
  bucket : Option String

/-- JavaScript property read `fields[f]`: the first binding of `f`,
`undefined` when absent. -/
def fieldLookup (fields : List (String × FieldValue)) (f : String) : FieldValue :=
  match fields with
  | [] => .vUndefined
  | (k, v) :: rest => if k = f then v else fieldLookup rest f

/-- JavaScript `k in obj`: key presence (even when the bound value is
`undefined`). -/
def hasKey (kvs : List (String × FieldValue)) (k : String) : Bool :=
  match kvs with
  | [] => false
  | (k2, _) :: rest => if k2 = k then true else hasKey rest k

/-- JavaScript property read on an object, distinguishing an absent key. -/
def objLookup (kvs : List (String × FieldValue)) (k : String) : Option FieldValue :=
  match kvs with
  | [] => Option.none
  | (k2, v) :: rest => if k2 = k then some v else objLookup rest k

/-- JavaScript property write `fields[f] = v`: replace the first binding,
or append when absent. -/
def setField (fields : List (String × FieldValue)) (f : String) (v : FieldValue) :
    List (String × FieldValue) :=
  match fields with
  | [] => [(f, v)]
  | (k, w) :: rest => if k = f then (k, v) :: rest else (k, w) :: setField rest f v

/-- JavaScript `String(value)` on the value shapes of the data model. -/
def jsToString (v : FieldValue) : String :=
  match v with
  | .vNull => "null"
  | .vUndefined => "undefined"
  | .vStr s => s
  | .vNum n => toString n
  | .vBool b => if b then "true" else "false"
  | .vObj _ => "[object Object]"

/-- JavaScript `String(value ?? '')` as used by `computeHash`. -/
def jsToStringCo (v : FieldValue) : String :=
  match v with
  | .vNull => ""
  | .vUndefined => ""
  | _ => jsToString v

/-- JavaScript `Array.prototype.join(sep)`. -/
def jsJoin (sep : String) : List String → String
  | [] => ""
  | [x] => x
  | x :: y :: rest => x ++ sep ++ jsJoin sep (y :: rest)

/-- Code-unit lexicographic three-way string comparison: the fixed collation
chosen for the source's `localeCompare` (see the spec's design note on
platform-dependent collation) and for the default `Array.sort` on numbers. -/
def lexCmp : List Char → List Char → Int
  | [], [] => 0
  | [], _ :: _ => -1
  | _ :: _, [] => 1
  | a :: as, b :: bs => if a < b then -1 else if b < a then 1 else lexCmp as bs

/-- `a.localeCompare(b)` under the fixed code-point collation. -/
def jsCompareStrings (a b : String) : Int :=
  lexCmp a.data b.data

/-- Digit run to a natural number. -/
def digitsToNat (cs : List Char) : Nat :=
  cs.foldl (fun a c => a * 10 + (c.toNat - Char.toNat '0')) 0

/-- JavaScript `parseFloat`: skip whitespace, optional sign, then the longest
numeric prefix `digits[.digits][e[sign]digits]`; `NaN` (here `none`) when no
digit is found.  Exact rational arithmetic stands in for IEEE doubles. -/
def jsParseFloat (s : String) : Option Rat :=
  let cs := s.data.dropWhile (fun c =>
    c == ' ' || c == '\t' || c == '\n' || c == '\r' || c == '\x0b' || c == '\x0c')
  let signAndRest : Int × List Char :=
    match cs with
    | '-' :: t => (-1, t)
    | '+' :: t => (1, t)
    | _ => (1, cs)
  let sgn := signAndRest.1
  let cs1 := signAndRest.2
  let intDigits := cs1.takeWhile Char.isDigit
  let rest1 := cs1.dropWhile Char.isDigit
  let fracAndRest : List Char × List Char :=
    match rest1 with
    | '.' :: t => (t.takeWhile Char.isDigit, t.dropWhile Char.isDigit)
    | _ => ([], rest1)
  let fracDigits := fracAndRest.1
  let rest2 := fracAndRest.2
  if intDigits.isEmpty && fracDigits.isEmpty then Option.none
  else
    let expVal : Int :=
      match rest2 with
      | 'e' :: t | 'E' :: t =>
          let esignAndRest : Int × List Char :=
            match t with
            | '-' :: u => (-1, u)
            | '+' :: u => (1, u)
            | _ => (1, t)
          let eds := esignAndRest.2.takeWhile Char.isDigit
          if eds.isEmpty then 0 else esignAndRest.1 * (digitsToNat eds : Int)
      | _ => 0
    some (mkRat
      (sgn * (digitsToNat (intDigits ++ fracDigits) : Int) * ((10 : Nat) ^ expVal.toNat : Nat))
      ((10 : Nat) ^ (fracDigits.length + (-expVal).toNat)))

/-- Stable comparator sort: the model of `Array.prototype.sort(cmp)`.
An element is inserted before the first element it compares `≤ 0` against,
so equal-comparing elements keep their input order (ES2019 stability). -/
def insertCmp {α : Type} (cmp : α → α → Rat) (x : α) : List α → List α
  | [] => [x]
  | y :: ys => if cmp x y ≤ 0 then x :: y :: ys else y :: insertCmp cmp x ys

/-- Stable comparator sort over a whole list (see `insertCmp`). -/
def jsSortBy {α : Type} (cmp : α → α → Rat) : List α → List α
  | [] => []
  | x :: xs => insertCmp cmp x (jsSortBy cmp xs)

/-- `DateBucket` of `GroupingEngine.ts`. -/
inductive DateBucket where
  | overdue : DateBucket
  | today : DateBucket
  | thisWeek : DateBucket
  | future : DateBucket
  | none : DateBucket
deriving DecidableEq

/-- The string form of a `DateBucket` (the TypeScript union is a string). -/
def bucketLabel (b : DateBucket) : String :=
  match b with
  | .overdue => "overdue"
  | .today => "today"
  | .thisWeek => "thisWeek"
  | .future => "future"
  | .none => "none"

/-- `DATE_BUCKET_ORDER[key] ?? 999` of `GroupingEngine.ts`. -/
def dateBucketOrder (k : String) : Int :=
  if k = "overdue" then 0
  else if k = "today" then 1
  else if k = "thisWeek" then 2
  else if k = "future" then 3
  else if k = "none" then 4
  else 999

/-- Gregorian leap-year rule. -/
def isLeapYear (y : Nat) : Bool :=
  (y % 4 == 0 && y % 100 != 0) || y % 400 == 0

/-- Days in a month of the proleptic Gregorian calendar. -/
def daysInMonth (y m : Nat) : Nat :=
  if m = 2 then (if isLeapYear y then 29 else 28)
  else if m = 4 || m = 6 || m = 9 || m = 11 then 30
  else 31

/-- Day ordinal (days since 1970-01-01) of a civil date, the standard
era/year-of-era computation.  This is the day number a JavaScript `Date`
normalized with `setHours(0,0,0,0)` denotes under the UTC time-zone model. -/
def daysFromCivil (y : Int) (m d : Nat) : Int :=
  let yAdj : Int := if m ≤ 2 then y - 1 else y
  let era : Int := (if 0 ≤ yAdj then yAdj else yAdj - 399) / 400
  let yoe : Int := yAdj - era * 400
  let mp : Int := (m : Int) + (if 2 < m then -3 else 9)
  let doy : Int := (153 * mp + 2) / 5 + (d : Int) - 1
  let doe : Int := yoe * 365 + yoe / 4 - yoe / 100 + doy
  era * 146097 + doe - 719468

/-- Split a character list at every occurrence of the separator. -/
def splitOnChar (c : Char) : List Char → List (List Char)
  | [] => [[]]
  | x :: rest =>
      match splitOnChar c rest with
      | [] => [[]]
      | g :: gs => if x = c then [] :: g :: gs else (x :: g) :: gs

/-- A digit run of the given length, read as a number at most `bound`. -/
def boundedDigits (cs : List Char) (len bound : Nat) : Option Nat :=
  if cs.length = len && cs.all Char.isDigit && decide (digitsToNat cs ≤ bound) then
    some (digitsToNat cs)
  else Option.none

/-- The `SS` or `SS.mmm` seconds field of an ISO time. -/
def secondsOk (cs : List Char) : Bool :=
  match splitOnChar '.' cs with
  | [ss] => (boundedDigits ss 2 59).isSome
  | [ss, ms] =>
      (boundedDigits ss 2 59).isSome && decide (1 ≤ ms.length) &&
        decide (ms.length ≤ 3) && ms.all Char.isDigit
  | _ => false

/-- A valid `HH:MM`, `HH:MM:SS` or `HH:MM:SS.mmm` time, optionally `Z`-suffixed. -/
def validTimePart (cs : List Char) : Bool :=
  let core := if cs.getLast? == some 'Z' then cs.dropLast else cs
  match splitOnChar ':' core with
  | [hh, mm] => (boundedDigits hh 2 23).isSome && (boundedDigits mm 2 59).isSome
  | [hh, mm, ss] =>
      (boundedDigits hh 2 23).isSome && (boundedDigits mm 2 59).isSome && secondsOk ss
  | _ => false

/-- A strict `YYYY-MM-DD` calendar date. -/
def parseDatePart (cs : List Char) : Option (Nat × Nat × Nat) :=
  match splitOnChar '-' cs with
  | [ys, ms, ds] =>
      match boundedDigits ys 4 9999, boundedDigits ms 2 12, boundedDigits ds 2 31 with
      | some y, some m, some d =>
          if 1 ≤ m && 1 ≤ d && decide (d ≤ daysInMonth y m) then some (y, m, d)
          else Option.none
      | _, _, _ => Option.none
  | _ => Option.none

/-- `new Date(s)` followed by `setHours(0,0,0,0)`, as a day ordinal: parse an
ISO date (optionally with a time-of-day suffix, which normalization strips)
and return its calendar day; `none` models a `NaN`-valued (invalid) date. -/
def jsDateParse (s : String) : Option Int :=
  match splitOnChar 'T' s.data with
  | [d] => (parseDatePart d).map (fun t => daysFromCivil (t.1 : Int) t.2.1 t.2.2)
  | [d, tm] =>
      if validTimePart tm then
        (parseDatePart d).map (fun t => daysFromCivil (t.1 : Int) t.2.1 t.2.2)
      else Option.none
  | _ => Option.none

/-- `GroupingEngine.getDateBucket`, with the ambient `new Date()` current day
made the explicit argument `today`.  Field values are JSON-shaped, so the
`instanceof Date` arm of the source never fires and non-string values fall to
the final `'none'` return. -/
def getDateBucket (value : FieldValue) (today : Int) : DateBucket :=
  match value with
  | .vNull => .none
  | .vUndefined => .none
  | .vStr s =>
      if s = "" then .none
      else
        match jsDateParse s with
        | Option.none => .none
        | some itemDate =>
            if itemDate < today then .overdue
            else if itemDate = today then .today
            else if itemDate < today + 7 then .thisWeek
            else .future
  | _ => .none

example : jsParseFloat "10x" = some 10 := by decide
example : jsParseFloat "-2.5e1" = some (-25) := by decide
example : jsParseFloat "x" = Option.none := by decide
example : jsParseFloat " .5" = some (mkRat 1 2) := by decide
example : jsDateParse "2020-01-01" = some 18262 := by decide
example : jsDateParse "2020-02-30" = Option.none := by decide
example : jsDateParse "2020-01-01T10:30:00Z" = some 18262 := by decide
example : jsDateParse "2020-01-01Tgarbage" = Option.none := by decide
example : getDateBucket (.vStr "2020-01-05") (daysFromCivil 2020 1 1) = .thisWeek := by decide
example : getDateBucket (.vStr "2020-01-05") (daysFromCivil 2020 1 10) = .overdue := by decide
example : getDateBucket (.vStr "2020-01-05") (daysFromCivil 2020 1 5) = .today := by decide
example : getDateBucket (.vStr "2020-01-05") (daysFromCivil 2019 12 20) = .future := by decide
example : getDateBucket (.vNum 1577836800000) 0 = .none := by decide

/-- Hexadecimal digit character. -/
def hexDigit (n : Nat) : Char :=
  if n < 10 then Char.ofNat (Char.toNat '0' + n) else Char.ofNat (Char.toNat 'a' + n - 10)

/-- JSON string escaping of one character. -/
def jsonEscapeChar (c : Char) : List Char :=
  if c = '"' then ['\\', '"']
  else if c = '\\' then ['\\', '\\']
  else if c = '\n' then ['\\', 'n']
  else if c = '\r' then ['\\', 'r']
  else if c = '\t' then ['\\', 't']
  else if c = '\x08' then ['\\', 'b']
  else if c = '\x0c' then ['\\', 'f']
  else if c.toNat < 32 then
    ['\\', 'u', '0', '0', hexDigit (c.toNat / 16), hexDigit (c.toNat % 16)]
  else [c]

/-- JSON string escaping of a character sequence. -/
def jsonEscapeList (cs : List Char) : List Char :=
  cs.foldr (fun c acc => jsonEscapeChar c ++ acc) []

/-- A JSON string literal: quoted and escaped. -/
def jsonQuote (s : String) : String :=
  "\"" ++ String.mk (jsonEscapeList s.data) ++ "\""

/-- Scanner for the body of a JSON string literal: splits a character
stream at the first unescaped quote, keeping escape pairs intact.  It is
a left inverse to escaping, used to show the serialization is injective. -/
def scanRawAux : Bool → List Char → Option (List Char × List Char)
  | _, [] => Option.none
  | true, x :: rest => (scanRawAux false rest).map (fun p => (x :: p.1, p.2))
  | false, c :: rest =>
      if c = '"' then some ([], rest)
      else if c = '\\' then (scanRawAux true rest).map (fun p => (c :: p.1, p.2))
      else (scanRawAux false rest).map (fun p => (c :: p.1, p.2))

/-- The scanner proper: no escape pending. -/
def scanRaw (l : List Char) : Option (List Char × List Char) :=
  scanRawAux false l

mutual

/-- `JSON.stringify` on the field-value shapes of the data model
(object properties in insertion order, `undefined`-valued properties
omitted, as ECMAScript specifies). -/
def jsonStringifyValue : FieldValue → String
  | .vNull => "null"
  | .vUndefined => "undefined"
  | .vStr s => jsonQuote s
  | .vNum n => toString n
  | .vBool b => if b then "true" else "false"
  | .vObj kvs => "\x7b" ++ jsJoin "," (jsonMembers kvs) ++ "\x7d"

/-- The serialized `"key":value` members of a JSON object. -/
def jsonMembers : List (String × FieldValue) → List String
  | [] => []
  | (k, v) :: rest =>
      match v with
      | .vUndefined => jsonMembers rest
      | _ => (jsonQuote k ++ ":" ++ jsonStringifyValue v) :: jsonMembers rest

end

/-- The displayName fallback of `GroupingEngine.getFieldValue`: a truthy
string-valued `displayName` property, else `JSON.stringify` of the object. -/
def identityFallback (kvs : List (String × FieldValue)) : String :=
  match objLookup kvs "displayName" with
  | some (.vStr s) => if s = "" then jsonStringifyValue (.vObj kvs) else s
  | _ => jsonStringifyValue (.vObj kvs)

/-- The object arm of `GroupingEngine.getFieldValue`: identity-like objects
project `spec.projection ?? 'displayName'` (a truthy string), fall back to
`displayName`, and otherwise (as any other object) serialize to JSON. -/
def identityKey (kvs : List (String × FieldValue)) (spec : GroupSpec) : String :=
  if hasKey kvs "displayName" || hasKey kvs "uniqueName" then
    match objLookup kvs (spec.projection.getD "displayName") with
    | some (.vStr s) => if s = "" then identityFallback kvs else s
    | _ => identityFallback kvs
  else jsonStringifyValue (.vObj kvs)

/-- The trailing branches of `GroupingEngine.getFieldValue` for a
non-missing, non-object value: date bucketing when configured, else the
primitive's string conversion. -/
def primitiveKey (v : FieldValue) (spec : GroupSpec) (today : Int) : String :=
  if spec.bucket = some "date" then bucketLabel (getDateBucket v today)
  else jsToString v

/-- `GroupingEngine.getFieldValue`, the ambient current day explicit.
Branch order follows the source: missing check (null, undefined, empty
string), object check, then date-bucket check and primitive
stringification (`primitiveKey`). -/
def getFieldValue (workItem : WorkItem) (spec : GroupSpec) (today : Int) : String :=
  match fieldLookup workItem.fields spec.field with
  | .vNull => spec.missingLabel.getD "(none)"
  | .vUndefined => spec.missingLabel.getD "(none)"
  | .vStr s =>
      if s = "" then spec.missingLabel.getD "(none)"
      else primitiveKey (.vStr s) spec today
  | .vObj kvs => identityKey kvs spec
  | v => primitiveKey v spec today

/-- `WorkItemNode` of `GroupingEngine.ts` (leaf). -/
structure WorkItemNode where
  id : Nat
  title : String
  state : Option String
  workItemType : Option String
  priority : Option Int
  url : Option String
deriving DecidableEq

/-- `TreeNode` of `GroupingEngine.ts`, restricted to the two variants the
engine builds (the `QueryNode` wrapper is built by the tree provider). -/
inductive TreeNode where
  | group : String → String → Nat → List TreeNode → Nat → TreeNode
  | workItem : WorkItemNode → TreeNode

/-- `GroupNode` of `GroupingEngine.ts`: key, label, count, children, level. -/
structure GroupNode where
  key : String
  label : String
  count : Nat
  children : List TreeNode
  level : Nat

/-- Upcast of a `GroupNode` into the `TreeNode` union. -/
def TreeNode.ofGroup (g : GroupNode) : TreeNode :=
  .group g.key g.label g.count g.children g.level

/-- A runtime string-valued field, as read through the `as string` cast. -/
def valueAsString (v : FieldValue) : Option String :=
  match v with
  | .vStr s => some s
  | _ => Option.none

/-- A runtime number-valued field, as read through the `as number` cast. -/
def valueAsInt (v : FieldValue) : Option Int :=
  match v with
  | .vNum n => some n
  | _ => Option.none

/-- `GroupingEngine.toWorkItemNode`. -/
def toWorkItemNode (wi : WorkItem) : WorkItemNode :=
  ⟨wi.id,
   jsToString (match fieldLookup wi.fields "System.Title" with
     | .vNull => .vStr "Untitled"
     | .vUndefined => .vStr "Untitled"
     | v => v),
   valueAsString (fieldLookup wi.fields "System.State"),
   valueAsString (fieldLookup wi.fields "System.WorkItemType"),
   valueAsInt (fieldLookup wi.fields "Microsoft.VSTS.Common.Priority"),
   (match wi.url with
     | some u => some u
     | Option.none => wi.linksHtmlHref)⟩

/-- The comparator of `GroupingEngine.sortWorkItems`: priority ascending
(missing priority as 999), then id ascending. -/
def cmpWorkItems (a b : WorkItemNode) : Rat :=
  let priorityA : Int := a.priority.getD 999
  let priorityB : Int := b.priority.getD 999
  if priorityA ≠ priorityB then ((priorityA - priorityB : Int) : Rat)
  else (((a.id : Int) - (b.id : Int) : Int) : Rat)

/-- `GroupingEngine.sortWorkItems`. -/
def sortWorkItems (items : List WorkItemNode) : List WorkItemNode :=
  jsSortBy cmpWorkItems items

/-- The numeric-or-lexical tail of the `sortGroups` comparator: `parseFloat`
both keys; numeric difference when both parse, else `localeCompare`. -/
def cmpGroupsNumLex (a b : GroupNode) : Rat :=
  match jsParseFloat a.key, jsParseFloat b.key with
  | some numA, some numB => numA - numB
  | _, _ => ((jsCompareStrings a.key b.key : Int) : Rat)

/-- The comparator of `GroupingEngine.sortGroups`: date-bucket rank for
date rules; the missing label always last; then numeric/lexical. -/
def cmpGroups (spec : GroupSpec) (a b : GroupNode) : Rat :=
  if spec.bucket = some "date" then
    ((dateBucketOrder a.key - dateBucketOrder b.key : Int) : Rat)
  else
    let missingLabel := spec.missingLabel.getD "(none)"
    if a.key = missingLabel then 1
    else if b.key = missingLabel then -1
    else cmpGroupsNumLex a b

/-- `GroupingEngine.sortGroups`. -/
def sortGroups (groups : List GroupNode) (spec : GroupSpec) : List GroupNode :=
  jsSortBy (cmpGroups spec) groups

/-- `GroupingEngine.countWorkItems`: leaves count 1, group nodes contribute
their stored `count` (no recursion into children). -/
def countWorkItems : List TreeNode → Nat
  | [] => 0
  | .workItem _ :: rest => 1 + countWorkItems rest
  | .group _ _ c _ _ :: rest => c + countWorkItems rest

/-- One `Map` insertion step of the partition loop of `groupRecursive`:
append to the entry of the key, or create the entry at the end. -/
def addToGroup : List (String × List WorkItem) → String → WorkItem → List (String × List WorkItem)
  | [], key, wi => [(key, [wi])]
  | (k, its) :: rest, key, wi =>
      if k = key then (k, its ++ [wi]) :: rest
      else (k, its) :: addToGroup rest key wi

/-- The partition loop of `groupRecursive`: a `Map<string, WorkItem[]>` in
insertion order. -/
def partitionByKey (today : Int) (spec : GroupSpec) (workItems : List WorkItem) :
    List (String × List WorkItem) :=
  workItems.foldl (fun gs wi => addToGroup gs (getFieldValue wi spec today) wi) []

/-- `GroupingEngine.groupRecursive`: the remaining rule levels are passed as
a list (the source indexes the full array by `level`; the two are the same
recursion), `level` is the current depth, and the ambient day is explicit. -/
def groupRecursive (today : Int) : List GroupSpec → Nat → List WorkItem → List TreeNode
  | [], _, workItems => (sortWorkItems (workItems.map toWorkItemNode)).map TreeNode.workItem
  | spec :: rest, level, workItems =>
      let groups := partitionByKey today spec workItems
      let groupNodes := groups.map (fun g =>
        let children := groupRecursive today rest (level + 1) g.2
        (⟨g.1, g.1, countWorkItems children, children, level⟩ : GroupNode))
      (sortGroups groupNodes spec).map TreeNode.ofGroup

/-- `GroupingEngine.buildTree`. -/
def buildTree (today : Int) (workItems : List WorkItem) (groupSpecs : List GroupSpec) :
    List TreeNode :=
  match groupSpecs with
  | [] => (sortWorkItems (workItems.map toWorkItemNode)).map TreeNode.workItem
  | _ => groupRecursive today groupSpecs 0 workItems

/-- The structured content of `GroupingEngine.computeHash`: the
default-sorted id array (JavaScript default sort compares the decimal
strings) and, per record in input order, the `|`-joined coerced values of
the rule-named fields. -/
def computeHashData (workItems : List WorkItem) (groupSpecs : List GroupSpec) :
    List Nat × List String :=
  let ids := jsSortBy
    (fun a b => ((jsCompareStrings (toString a) (toString b) : Int) : Rat))
    (workItems.map WorkItem.id)
  let fields := groupSpecs.map GroupSpec.field
  let fieldValues := workItems.map (fun wi =>
    jsJoin "|" (fields.map (fun f => jsToStringCo (fieldLookup wi.fields f))))
  (ids, fieldValues)

/-- `JSON.stringify({ ids, fieldValues })`. -/
def jsonStringifyHash (p : List Nat × List String) : String :=
  "\x7b\"ids\":[" ++ jsJoin "," (p.1.map toString) ++
    "],\"fieldValues\":[" ++ jsJoin "," (p.2.map jsonQuote) ++ "]\x7d"

/-- `GroupingEngine.computeHash`. -/
def computeHash (workItems : List WorkItem) (groupSpecs : List GroupSpec) : String :=
  jsonStringifyHash (computeHashData workItems groupSpecs)

/-- The default `groupBy` of `Settings.ts`. -/
def defaultGroupBy : List GroupSpec :=
  [⟨"System.State", Option.none, some "(no state)", Option.none⟩]

/-- `Settings.groupBy`: the configured value (or the default), limited to 5
levels by `slice(0, 5)`. -/
def settingsGroupBy (configured : Option (List GroupSpec)) : List GroupSpec :=
  (configured.getD defaultGroupBy).take 5

/-- Number of `WorkItemNode` leaves in a forest (the claim-side measure the
stored `count` fields are compared against). -/
def leafCountList : List TreeNode → Nat
  | [] => 0
  | .workItem _ :: rest => 1 + leafCountList rest
  | .group _ _ _ cs _ :: rest => leafCountList cs + leafCountList rest

/-- Every `GroupNode` of a forest stores a `count` equal to the number of
leaves below it. -/
def countsOkList : List TreeNode → Bool
  | [] => true
  | .workItem _ :: rest => countsOkList rest
  | .group _ _ c cs _ :: rest => (c == leafCountList cs) && countsOkList cs && countsOkList rest

/-- The `count` of a top-level node (a leaf counts as one item). -/
def nodeCount : TreeNode → Nat
  | .group _ _ c _ _ => c
  | .workItem _ => 1

/-- Sum of `count` over the top-level nodes of a forest. -/
def sumCounts (l : List TreeNode) : Nat :=
  (l.map nodeCount).sum

/-- Number of group levels on the deepest path of a forest (leaves are
depth 0). -/
def listGroupDepth : List TreeNode → Nat
  | [] => 0
  | .workItem _ :: rest => listGroupDepth rest
  | .group _ _ _ cs _ :: rest => max (1 + listGroupDepth cs) (listGroupDepth rest)

/-- Example records and rule for the `computeHash` theorems. -/
def hashSpecs : List GroupSpec := [⟨"f", Option.none, Option.none, Option.none⟩]

/-- A record with id 1 and tracked field value `"a"`. -/
def hashWi1 : WorkItem := ⟨1, [("f", .vStr "a")], Option.none, Option.none⟩

/-- A record with id 2 and tracked field value `"b"`. -/
def hashWi2 : WorkItem := ⟨2, [("f", .vStr "b")], Option.none, Option.none⟩

/-- C1: `computeHash` is NOT permutation-invariant in the records: it sorts
the id array, but serializes the per-record tracked field values in input
order, so swapping two records with different tracked values changes the
fingerprint.  This evaluates the code at the failing input. -/
theorem c1_hash_not_permutation_invariant :
    computeHash [hashWi1, hashWi2] hashSpecs ≠ computeHash [hashWi2, hashWi1] hashSpecs := by
  decide

/-- The record and date rule of the C4 counterexample. -/
def wiDue : WorkItem := ⟨1, [("due", .vStr "2020-01-05")], Option.none, Option.none⟩

/-- A date-bucket rule on the `due` field. -/
def specDue : GroupSpec := ⟨"due", Option.none, Option.none, some "date"⟩

/-- C4 counterexample: `getFieldValue` is not pure across time for
date-bucket rules — the same record and rule yield different keys on
different current days (`thisWeek` on 2020-01-01, `overdue` on 2020-01-10),
because `getDateBucket` reads the ambient clock. -/
theorem c4_counterexample_date_rule_clock_dependent :
    getFieldValue wiDue specDue (daysFromCivil 2020 1 1) ≠
      getFieldValue wiDue specDue (daysFromCivil 2020 1 10) := by
  decide

/-- C4 amended: for rules without `bucket: 'date'`, `getFieldValue` does not
consult the clock at all — its key is the same on every current day (and the
embedding is a total function, so no invocation can raise). -/
theorem c4_amended_non_date_rules_clock_independent :
    ∀ (wi : WorkItem) (spec : GroupSpec) (t1 t2 : Int),
      spec.bucket ≠ some "date" →
      getFieldValue wi spec t1 = getFieldValue wi spec t2 := by
  intro wi spec t1 t2 hb
  cases h : fieldLookup wi.fields spec.field <;>
    simp [getFieldValue, h, primitiveKey, hb]

/-- C4 amended, witness: a non-date rule on a date-valued field yields the
same key on two different days. -/
theorem c4_amended_witness :
    (⟨"due", Option.none, Option.none, Option.none⟩ : GroupSpec).bucket ≠ some "date" ∧
      getFieldValue wiDue ⟨"due", Option.none, Option.none, Option.none⟩ (daysFromCivil 2020 1 1) =
        getFieldValue wiDue ⟨"due", Option.none, Option.none, Option.none⟩ (daysFromCivil 2020 1 10) :=
  ⟨by decide,
   c4_amended_non_date_rules_clock_independent wiDue ⟨"due", Option.none, Option.none, Option.none⟩
     (daysFromCivil 2020 1 1) (daysFromCivil 2020 1 10) (by decide)⟩

/-- C10: the object branch of `getFieldValue` precedes the date-bucket
branch.  An object field value lacking both `displayName` and `uniqueName`
is keyed by its JSON serialization even under a `bucket: 'date'` rule; and
for any object value the key never depends on the current day, so no
date-bucket label is ever produced for object-valued fields. -/
theorem c10_object_branch_precedes_date_bucket :
    (∀ (wi : WorkItem) (spec : GroupSpec) (today : Int) (kvs : List (String × FieldValue)),
       fieldLookup wi.fields spec.field = .vObj kvs →
       hasKey kvs "displayName" = false →
       hasKey kvs "uniqueName" = false →
       getFieldValue wi spec today = jsonStringifyValue (.vObj kvs)) ∧
    (∀ (wi : WorkItem) (spec : GroupSpec) (t1 t2 : Int) (kvs : List (String × FieldValue)),
       fieldLookup wi.fields spec.field = .vObj kvs →
       getFieldValue wi spec t1 = getFieldValue wi spec t2) := by
  constructor
  · intro wi spec today kvs h hd hu
    simp [getFieldValue, h, identityKey, hd, hu]
  · intro wi spec t1 t2 kvs h
    simp [getFieldValue, h]

/-- C10 witness: a `displayName`-less object under a date rule is keyed by
its JSON serialization, identically on two different days. -/
theorem c10_witness :
    fieldLookup (⟨7, [("a", .vObj [("x", .vNum 1)])], Option.none, Option.none⟩ : WorkItem).fields
        (⟨"a", Option.none, Option.none, some "date"⟩ : GroupSpec).field = .vObj [("x", .vNum 1)] ∧
    getFieldValue ⟨7, [("a", .vObj [("x", .vNum 1)])], Option.none, Option.none⟩
        ⟨"a", Option.none, Option.none, some "date"⟩ 0 = jsonStringifyValue (.vObj [("x", .vNum 1)]) ∧
    getFieldValue ⟨7, [("a", .vObj [("x", .vNum 1)])], Option.none, Option.none⟩
        ⟨"a", Option.none, Option.none, some "date"⟩ 0 =
      getFieldValue ⟨7, [("a", .vObj [("x", .vNum 1)])], Option.none, Option.none⟩
        ⟨"a", Option.none, Option.none, some "date"⟩ 99 :=
  ⟨rfl,
   c10_object_branch_precedes_date_bucket.1 _ _ 0 _ rfl rfl rfl,
   c10_object_branch_precedes_date_bucket.2 _ _ 0 99 _ rfl⟩

/-- The calendar day a field value denotes, when it is parseable as a valid
date: a non-empty string with a valid ISO date (normalized to midnight).
Null, undefined, the empty string, non-strings, and invalid dates have none. -/
def dateValueDay (v : FieldValue) : Option Int :=
  match v with
  | .vStr s => if s = "" then Option.none else jsDateParse s
  | _ => Option.none

/-- C9: the date bucketer classifies every field value into exactly one
bucket by calendar-day comparison against the current day: `overdue` iff
the day is before today, `today` iff equal, `thisWeek` iff strictly between
today and today+7, `future` iff at least today+7, and `none` exactly for
values with no parseable calendar day. -/
theorem c9_date_bucket_characterization :
    ∀ (v : FieldValue) (today : Int),
      (getDateBucket v today = .none ↔ dateValueDay v = Option.none) ∧
      (getDateBucket v today = .overdue ↔
        ∃ d, dateValueDay v = some d ∧ d < today) ∧
      (getDateBucket v today = .today ↔ dateValueDay v = some today) ∧
      (getDateBucket v today = .thisWeek ↔
        ∃ d, dateValueDay v = some d ∧ today < d ∧ d < today + 7) ∧
      (getDateBucket v today = .future ↔
        ∃ d, dateValueDay v = some d ∧ today + 7 ≤ d) := by
  intro v today
  cases v with
  | vStr s =>
      by_cases hs : s = ""
      · simp [getDateBucket, dateValueDay, hs]
      · cases h : jsDateParse s with
        | none => simp [getDateBucket, dateValueDay, hs, h]
        | some d =>
            simp only [getDateBucket, dateValueDay, hs, h, if_neg hs]
            by_cases h1 : d < today
            · simp [h1]
              omega
            · by_cases h2 : d = today
              · simp [h1, h2]
              · by_cases h3 : d < today + 7
                · simp [h1, h2, h3]
                  omega
                · simp [h1, h2, h3]
                  omega
  | vNull => simp [getDateBucket, dateValueDay]
  | vUndefined => simp [getDateBucket, dateValueDay]
  | vNum n => simp [getDateBucket, dateValueDay]
  | vBool b => simp [getDateBucket, dateValueDay]
  | vObj kvs => simp [getDateBucket, dateValueDay]

/-- Modelled from the spec words for C7: a string "parses fully as a
number" when, after trimming whitespace, the entire string is a numeric
literal `[sign]digits[.digits][e[sign]digits]` (what `Number(s)` accepts,
as opposed to `parseFloat`'s longest-prefix parse). -/
def isFullNumber (s : String) : Bool :=
  let ws := fun (c : Char) =>
    c == ' ' || c == '\t' || c == '\n' || c == '\r' || c == '\x0b' || c == '\x0c'
  let cs := ((s.data.dropWhile ws).reverse.dropWhile ws).reverse
  let afterSign :=
    match cs with
    | '-' :: t => t
    | '+' :: t => t
    | _ => cs
  let intDigits := afterSign.takeWhile Char.isDigit
  let rest1 := afterSign.dropWhile Char.isDigit
  let fracSplit : List Char × List Char :=
    match rest1 with
    | '.' :: t => (t.takeWhile Char.isDigit, t.dropWhile Char.isDigit)
    | _ => ([], rest1)
  let rest2 := fracSplit.2
  let expRest : List Char :=
    match rest2 with
    | 'e' :: t | 'E' :: t =>
        let t1 :=
          match t with
          | '-' :: u => u
          | '+' :: u => u
          | _ => t
        if (t1.takeWhile Char.isDigit).isEmpty then rest2 else t1.dropWhile Char.isDigit
    | _ => rest2
  (!intDigits.isEmpty || !fracSplit.1.isEmpty) && expRest.isEmpty

/-- A group keyed `"10x"` (numeric prefix 10, not fully numeric). -/
def gTen : GroupNode := ⟨"10x", "10x", 0, [], 0⟩

/-- A group keyed `"9y"` (numeric prefix 9, not fully numeric). -/
def gNine : GroupNode := ⟨"9y", "9y", 0, [], 0⟩

/-- A plain (non-date, default missing label) rule. -/
def plainSpec : GroupSpec := ⟨"f", Option.none, Option.none, Option.none⟩

unseal Rat.sub in
/-- C7 counterexample: `sortGroups` compares `parseFloat` PREFIXES, not
full numeric parses.  Neither `"10x"` nor `"9y"` parses fully as a number,
so the claim requires lexical order (`"10x"` before `"9y"`), but the code
orders them numerically by prefix (9 before 10). -/
theorem c7_counterexample_prefix_numeric_sort :
    (sortGroups [gTen, gNine] plainSpec).map GroupNode.key = ["9y", "10x"] ∧
      isFullNumber "10x" = false ∧ isFullNumber "9y" = false ∧
      jsCompareStrings "10x" "9y" < 0 := by
  decide

/-- Modelled from the spec words for the amended C7: the sibling order the
comparator realizes — numeric when `parseFloat` succeeds on both keys
(longest numeric prefix), lexical otherwise. -/
def parseFloatKeyLe (k1 k2 : String) : Bool :=
  match jsParseFloat k1, jsParseFloat k2 with
  | some x, some y => decide (x ≤ y)
  | _, _ => decide (jsCompareStrings k1 k2 ≤ 0)

/-- C7 amended: for a non-date rule and keys distinct from the missing
label, two sibling groups are ordered numerically by `parseFloat` value
whenever BOTH keys have a parseable numeric prefix (even when a key does
not parse fully as a number), and lexically otherwise. -/
theorem c7_amended_parsefloat_prefix_policy :
    ∀ (spec : GroupSpec) (g1 g2 : GroupNode),
      spec.bucket ≠ some "date" →
      g1.key ≠ spec.missingLabel.getD "(none)" →
      g2.key ≠ spec.missingLabel.getD "(none)" →
      sortGroups [g1, g2] spec =
        if parseFloatKeyLe g1.key g2.key = true then [g1, g2] else [g2, g1] := by
  intro spec g1 g2 hb h1 h2
  have hcmp : cmpGroups spec g1 g2 ≤ 0 ↔ parseFloatKeyLe g1.key g2.key = true := by
    unfold cmpGroups parseFloatKeyLe cmpGroupsNumLex
    rw [if_neg hb, if_neg h1, if_neg h2]
    cases hp1 : jsParseFloat g1.key <;> cases hp2 : jsParseFloat g2.key <;>
      simp [sub_nonpos, decide_eq_true_iff, Int.cast_nonpos]
  by_cases hc : cmpGroups spec g1 g2 ≤ 0
  · rw [if_pos (hcmp.mp hc)]
    simp [sortGroups, jsSortBy, insertCmp, hc]
  · rw [if_neg (fun h => hc (hcmp.mpr h))]
    simp [sortGroups, jsSortBy, insertCmp, hc]

/-- C7 amended, witness: both keys have numeric prefixes, so `"9y"` sorts
before `"10x"`. -/
theorem c7_amended_witness :
    plainSpec.bucket ≠ some "date" ∧
      gNine.key ≠ plainSpec.missingLabel.getD "(none)" ∧
      gTen.key ≠ plainSpec.missingLabel.getD "(none)" ∧
      sortGroups [gNine, gTen] plainSpec =
        (if parseFloatKeyLe gNine.key gTen.key = true then [gNine, gTen] else [gTen, gNine]) :=
  ⟨by decide, by decide, by decide,
   c7_amended_parsefloat_prefix_policy plainSpec gNine gTen (by decide) (by decide) (by decide)⟩

theorem insertCmp_perm {α : Type} (cmp : α → α → Rat) (x : α) (l : List α) :
    (insertCmp cmp x l).Perm (x :: l) := by
  induction l with
  | nil => simp [insertCmp]
  | cons y ys ih =>
      simp only [insertCmp]
      split
      · exact List.Perm.refl _
      · exact (ih.cons y).trans (List.Perm.swap x y ys)

theorem jsSortBy_perm {α : Type} (cmp : α → α → Rat) (l : List α) :
    (jsSortBy cmp l).Perm l := by
  induction l with
  | nil => exact List.Perm.refl _
  | cons x xs ih => exact (insertCmp_perm cmp x (jsSortBy cmp xs)).trans (ih.cons x)

theorem mem_jsSortBy {α : Type} {cmp : α → α → Rat} {x : α} {l : List α} :
    x ∈ jsSortBy cmp l ↔ x ∈ l :=
  (jsSortBy_perm cmp l).mem_iff

theorem listGroupDepth_cons (t : TreeNode) (rest : List TreeNode) :
    listGroupDepth (t :: rest) = max (listGroupDepth [t]) (listGroupDepth rest) := by
  cases t <;> simp [listGroupDepth]

theorem listGroupDepth_le_of_mem {l : List TreeNode} {k : Nat}
    (h : ∀ t ∈ l, listGroupDepth [t] ≤ k) : listGroupDepth l ≤ k := by
  induction l with
  | nil => simp [listGroupDepth]
  | cons t rest ih =>
      rw [listGroupDepth_cons]
      exact max_le (h t (by simp)) (ih fun u hu => h u (by simp [hu]))

theorem listGroupDepth_map_workItem (l : List WorkItemNode) :
    listGroupDepth (l.map TreeNode.workItem) = 0 := by
  induction l with
  | nil => simp [listGroupDepth]
  | cons w ws ih => simpa [listGroupDepth] using ih

theorem groupRecursive_depth_le (specs : List GroupSpec) :
    ∀ (today : Int) (level : Nat) (items : List WorkItem),
      listGroupDepth (groupRecursive today specs level items) ≤ specs.length := by
  induction specs with
  | nil =>
      intro today level items
      simp [groupRecursive, listGroupDepth_map_workItem]
  | cons spec rest ih =>
      intro today level items
      apply listGroupDepth_le_of_mem
      intro t ht
      simp only [groupRecursive, List.mem_map] at ht
      obtain ⟨g, hg, rfl⟩ := ht
      rw [sortGroups, mem_jsSortBy, List.mem_map] at hg
      obtain ⟨p, _, rfl⟩ := hg
      have hch := ih today (level + 1) p.2
      simp only [TreeNode.ofGroup, listGroupDepth, List.length_cons]
      omega

/-- A list of six grouping rules (one more than the documented cap). -/
def spec6 : List GroupSpec := List.replicate 6 ⟨"f", Option.none, Option.none, Option.none⟩

theorem c3_single_chain_depth (n : Nat) : ∀ (level : Nat),
    listGroupDepth (groupRecursive 0 (List.replicate n plainSpec) level [hashWi1]) = n := by
  induction n with
  | zero =>
      intro level
      simp [groupRecursive, listGroupDepth_map_workItem]
  | succ n ih =>
      intro level
      rw [List.replicate_succ]
      have hpart : partitionByKey 0 plainSpec [hashWi1] = [("a", [hashWi1])] := rfl
      simp only [groupRecursive, hpart, List.map_cons, List.map_nil, sortGroups, jsSortBy,
        insertCmp, TreeNode.ofGroup]
      simp [listGroupDepth, ih (level + 1)]
      omega

/-- C3 counterexample: `buildTree` itself applies ALL the rules it is given
— with six rules it builds a depth-6 tree, different from the tree built
from the first five rules, so `buildTree(records, rules)` is not
`buildTree(records, rules.slice(0,5))`. -/
theorem c3_counterexample_engine_applies_all_rules :
    listGroupDepth (buildTree 0 [hashWi1] spec6) = 6 ∧
      listGroupDepth (buildTree 0 [hashWi1] (spec6.take 5)) = 5 ∧
      buildTree 0 [hashWi1] spec6 ≠ buildTree 0 [hashWi1] (spec6.take 5) := by
  have e6 : buildTree 0 [hashWi1] spec6 =
      groupRecursive 0 (List.replicate 6 plainSpec) 0 [hashWi1] := rfl
  have ht : spec6.take 5 = List.replicate 5 plainSpec := by
    simp [spec6, plainSpec]
  have e5 : buildTree 0 [hashWi1] (spec6.take 5) =
      groupRecursive 0 (List.replicate 5 plainSpec) 0 [hashWi1] := by
    rw [ht]; rfl
  have d6 : listGroupDepth (buildTree 0 [hashWi1] spec6) = 6 := by
    rw [e6]; exact c3_single_chain_depth 6 0
  have d5 : listGroupDepth (buildTree 0 [hashWi1] (spec6.take 5)) = 5 := by
    rw [e5]; exact c3_single_chain_depth 5 0
  refine ⟨d6, d5, fun h => ?_⟩
  rw [h, d5] at d6
  exact absurd d6 (by decide)

/-- C3 amended: the five-rule cap is enforced by the settings layer, not by
the engine.  `Settings.groupBy` truncates the configured list to its first
five entries without error, the engine then receives the truncated list
unchanged, and every tree built from a settings-provided rule list has at
most 5 group levels. -/
theorem c3_amended_cap_at_settings_layer :
    ∀ (raw : List GroupSpec) (cfg : Option (List GroupSpec)) (today : Int)
      (items : List WorkItem),
      settingsGroupBy (some raw) = raw.take 5 ∧
      buildTree today items (settingsGroupBy (some raw)) = buildTree today items (raw.take 5) ∧
      listGroupDepth (buildTree today items (settingsGroupBy cfg)) ≤ 5 := by
  intro raw cfg today items
  refine ⟨rfl, rfl, ?_⟩
  have hlen : (settingsGroupBy cfg).length ≤ 5 := by
    simp [settingsGroupBy]
  cases h : settingsGroupBy cfg with
  | nil => simp [buildTree, listGroupDepth_map_workItem]
  | cons s t =>
      have : buildTree today items (s :: t) = groupRecursive today (s :: t) 0 items := rfl
      rw [this]
      calc listGroupDepth (groupRecursive today (s :: t) 0 items)
          ≤ (s :: t).length := groupRecursive_depth_le (s :: t) today 0 items
        _ ≤ 5 := by rw [← h]; exact hlen

theorem insertCmp_append_of_le {α : Type} {cmp : α → α → Rat} {x : α} {ms : List α}
    (hms : ∀ m ∈ ms, cmp x m ≤ 0) (s : List α) :
    insertCmp cmp x (s ++ ms) = insertCmp cmp x s ++ ms := by
  induction s with
  | nil =>
      cases ms with
      | nil => rfl
      | cons m ms2 =>
          simp only [List.nil_append, insertCmp]
          rw [if_pos (hms m (by simp))]
          rfl
  | cons y s2 ih =>
      simp only [List.cons_append, insertCmp]
      split
      · rfl
      · simp only [List.append_eq]
        rw [ih]
        simp

theorem insertCmp_all_gt {α : Type} {cmp : α → α → Rat} {x : α} {l : List α}
    (h : ∀ y ∈ l, ¬ cmp x y ≤ 0) : insertCmp cmp x l = l ++ [x] := by
  induction l with
  | nil => rfl
  | cons y ys ih =>
      simp only [insertCmp]
      rw [if_neg (h y (by simp)), ih fun z hz => h z (by simp [hz])]
      rfl

theorem insertCmp_congr {α : Type} {cmp1 cmp2 : α → α → Rat} {x : α} {l : List α}
    (h : ∀ y ∈ l, cmp1 x y = cmp2 x y) : insertCmp cmp1 x l = insertCmp cmp2 x l := by
  induction l with
  | nil => rfl
  | cons y ys ih =>
      simp only [insertCmp]
      rw [h y (by simp), ih fun z hz => h z (by simp [hz])]

theorem cmpGroups_missing_left {spec : GroupSpec} {a b : GroupNode}
    (hb : spec.bucket ≠ some "date") (ha : a.key = spec.missingLabel.getD "(none)") :
    cmpGroups spec a b = 1 := by
  simp only [cmpGroups]
  rw [if_neg hb, if_pos ha]

theorem cmpGroups_missing_right {spec : GroupSpec} {a b : GroupNode}
    (hb : spec.bucket ≠ some "date") (ha : a.key ≠ spec.missingLabel.getD "(none)")
    (hbm : b.key = spec.missingLabel.getD "(none)") :
    cmpGroups spec a b = -1 := by
  simp only [cmpGroups]
  rw [if_neg hb, if_neg ha, if_pos hbm]

theorem cmpGroups_eq_numlex {spec : GroupSpec} {a b : GroupNode}
    (hb : spec.bucket ≠ some "date") (ha : a.key ≠ spec.missingLabel.getD "(none)")
    (hbm : b.key ≠ spec.missingLabel.getD "(none)") :
    cmpGroups spec a b = cmpGroupsNumLex a b := by
  simp only [cmpGroups]
  rw [if_neg hb, if_neg ha, if_neg hbm]

/-- C8: for a non-date rule, `sortGroups` puts the (at most one) sibling
group keyed by the missing label last, whatever its lexical or numeric
value, and sorts the remaining siblings among themselves by the
numeric/lexical comparator (`cmpGroupsNumLex`). -/
theorem c8_missing_label_sorts_last :
    ∀ (spec : GroupSpec) (gs : List GroupNode),
      spec.bucket ≠ some "date" →
      (gs.filter (fun g => g.key == spec.missingLabel.getD "(none)")).length ≤ 1 →
      sortGroups gs spec =
        jsSortBy cmpGroupsNumLex
            (gs.filter (fun g => g.key != spec.missingLabel.getD "(none)")) ++
          gs.filter (fun g => g.key == spec.missingLabel.getD "(none)") := by
  intro spec gs hb
  induction gs with
  | nil => intro _; rfl
  | cons g gs ih =>
      intro hlen
      by_cases hg : g.key = spec.missingLabel.getD "(none)"
      · have hcnt : (List.filter (fun g => g.key == spec.missingLabel.getD "(none)") (g :: gs)) =
            g :: gs.filter (fun g => g.key == spec.missingLabel.getD "(none)") := by
          simp [List.filter_cons, hg]
        rw [hcnt] at hlen
        have hnone : gs.filter (fun g => g.key == spec.missingLabel.getD "(none)") = [] := by
          have hl2 : (gs.filter (fun g => g.key == spec.missingLabel.getD "(none)")).length = 0 := by
            rw [List.length_cons] at hlen
            omega
          exact List.length_eq_zero.mp hl2
        have htail := ih (by rw [hnone]; simp)
        show insertCmp (cmpGroups spec) g (jsSortBy (cmpGroups spec) gs) = _
        have hsorted : jsSortBy (cmpGroups spec) gs = sortGroups gs spec := rfl
        rw [hsorted, htail, hnone, List.append_nil]
        rw [insertCmp_all_gt (fun y _ => by
          rw [cmpGroups_missing_left hb hg]
          norm_num)]
        rw [hcnt, hnone]
        have hne : (List.filter (fun g => g.key != spec.missingLabel.getD "(none)") (g :: gs)) =
            gs.filter (fun g => g.key != spec.missingLabel.getD "(none)") := by
          simp [List.filter_cons, hg]
        rw [hne]
      · have hne : (List.filter (fun g => g.key != spec.missingLabel.getD "(none)") (g :: gs)) =
            g :: gs.filter (fun g => g.key != spec.missingLabel.getD "(none)") := by
          simp [List.filter_cons, hg]
        have hcnt : (List.filter (fun g => g.key == spec.missingLabel.getD "(none)") (g :: gs)) =
            gs.filter (fun g => g.key == spec.missingLabel.getD "(none)") := by
          simp [List.filter_cons, hg]
        rw [hcnt] at hlen
        have htail := ih hlen
        show insertCmp (cmpGroups spec) g (jsSortBy (cmpGroups spec) gs) = _
        have hsorted : jsSortBy (cmpGroups spec) gs = sortGroups gs spec := rfl
        rw [hsorted, htail]
        rw [insertCmp_append_of_le (fun m hm => by
          have hmk : m.key = spec.missingLabel.getD "(none)" := by
            have := List.mem_filter.mp hm
            simpa using this.2
          rw [cmpGroups_missing_right hb hg hmk]
          norm_num)]
        rw [insertCmp_congr (fun y hy => by
          have hyk : y.key ≠ spec.missingLabel.getD "(none)" := by
            have hy2 := mem_jsSortBy.mp hy
            have := List.mem_filter.mp hy2
            simpa using this.2
          exact cmpGroups_eq_numlex hb hg hyk)]
        rw [hne, hcnt]
        rfl

/-- A group keyed by the default missing label. -/
def gMissing : GroupNode := ⟨"(none)", "(none)", 0, [], 0⟩

/-- A group keyed `"Active"`. -/
def gActive : GroupNode := ⟨"Active", "Active", 0, [], 0⟩

/-- C8 witness: with the default missing label, the `"(none)"` group sorts
after `"Active"`. -/
theorem c8_witness :
    plainSpec.bucket ≠ some "date" ∧
      (([gMissing, gActive] : List GroupNode).filter
        (fun g => g.key == plainSpec.missingLabel.getD "(none)")).length ≤ 1 ∧
      sortGroups [gMissing, gActive] plainSpec =
        jsSortBy cmpGroupsNumLex
            (([gMissing, gActive] : List GroupNode).filter
              (fun g => g.key != plainSpec.missingLabel.getD "(none)")) ++
          ([gMissing, gActive] : List GroupNode).filter
            (fun g => g.key == plainSpec.missingLabel.getD "(none)") :=
  ⟨by decide, by decide,
   c8_missing_label_sorts_last plainSpec [gMissing, gActive] (by decide) (by decide)⟩


/-- The leaf count of a single node. -/
def leafCountOne (t : TreeNode) : Nat :=
  leafCountList [t]

/-- The count-correctness of a single node. -/
def countsOkOne (t : TreeNode) : Bool :=
  countsOkList [t]

theorem leafCountList_cons (t : TreeNode) (rest : List TreeNode) :
    leafCountList (t :: rest) = leafCountOne t + leafCountList rest := by
  cases t <;> simp [leafCountList, leafCountOne]

theorem leafCountList_perm {l1 l2 : List TreeNode} (h : l1.Perm l2) :
    leafCountList l1 = leafCountList l2 := by
  induction h with
  | nil => rfl
  | cons x _ ih => rw [leafCountList_cons, ih, ← leafCountList_cons]
  | swap x y l => simp only [leafCountList_cons]; omega
  | trans _ _ ih1 ih2 => exact ih1.trans ih2

theorem countsOkList_cons (t : TreeNode) (rest : List TreeNode) :
    countsOkList (t :: rest) = (countsOkOne t && countsOkList rest) := by
  cases t <;> simp [countsOkList, countsOkOne, Bool.and_assoc]

theorem countsOkList_perm {l1 l2 : List TreeNode} (h : l1.Perm l2) :
    countsOkList l1 = countsOkList l2 := by
  induction h with
  | nil => rfl
  | cons x _ ih => rw [countsOkList_cons, ih, ← countsOkList_cons]
  | swap x y l =>
      simp only [countsOkList_cons, ← Bool.and_assoc]
      rw [Bool.and_comm (countsOkOne y) (countsOkOne x)]
  | trans _ _ ih1 ih2 => exact ih1.trans ih2

theorem leafCountList_map_workItem (l : List WorkItemNode) :
    leafCountList (l.map TreeNode.workItem) = l.length := by
  induction l with
  | nil => simp [leafCountList]
  | cons w ws ih => simp [leafCountList, ih]; omega

theorem countsOkList_map_workItem (l : List WorkItemNode) :
    countsOkList (l.map TreeNode.workItem) = true := by
  induction l with
  | nil => simp [countsOkList]
  | cons w ws ih => simpa [countsOkList] using ih

theorem countWorkItems_eq_leafCount {l : List TreeNode} (h : countsOkList l = true) :
    countWorkItems l = leafCountList l := by
  induction l with
  | nil => simp [countWorkItems, leafCountList]
  | cons t rest ih =>
      cases t with
      | workItem w =>
          simp only [countsOkList] at h
          simp [countWorkItems, leafCountList, ih h]
      | group k lb c cs lv =>
          simp only [countsOkList, Bool.and_eq_true, beq_iff_eq] at h
          simp [countWorkItems, leafCountList, ih h.2, h.1.1]

theorem sumCounts_cons (t : TreeNode) (rest : List TreeNode) :
    sumCounts (t :: rest) = nodeCount t + sumCounts rest := by
  simp [sumCounts]

theorem sumCounts_eq_leafCount {l : List TreeNode} (h : countsOkList l = true) :
    sumCounts l = leafCountList l := by
  induction l with
  | nil => simp [sumCounts, leafCountList]
  | cons t rest ih =>
      cases t with
      | workItem w =>
          simp only [countsOkList] at h
          rw [sumCounts_cons, ih h]
          simp [nodeCount, leafCountList]
      | group k lb c cs lv =>
          simp only [countsOkList, Bool.and_eq_true, beq_iff_eq] at h
          rw [sumCounts_cons, ih h.2]
          simp [nodeCount, leafCountList, h.1.1]

theorem addToGroup_sizes (gs : List (String × List WorkItem)) (k : String) (wi : WorkItem) :
    ((addToGroup gs k wi).map (fun g => g.2.length)).sum =
      (gs.map (fun g => g.2.length)).sum + 1 := by
  induction gs with
  | nil => simp [addToGroup]
  | cons p rest ih =>
      simp only [addToGroup]
      split
      · simp
        omega
      · simp [ih]
        omega

theorem partition_sizes (today : Int) (spec : GroupSpec) (items : List WorkItem) :
    ((partitionByKey today spec items).map (fun g => g.2.length)).sum = items.length := by
  have key : ∀ (its : List WorkItem) (acc : List (String × List WorkItem)),
      ((its.foldl (fun gs wi => addToGroup gs (getFieldValue wi spec today) wi) acc).map
          (fun g => g.2.length)).sum =
        (acc.map (fun g => g.2.length)).sum + its.length := by
    intro its
    induction its with
    | nil => intro acc; simp
    | cons wi rest ih =>
        intro acc
        simp only [List.foldl_cons, List.length_cons]
        rw [ih, addToGroup_sizes]
        omega
  simpa using key items []

theorem leafCountList_map_ofGroup (ns : List GroupNode) :
    leafCountList (ns.map TreeNode.ofGroup) =
      (ns.map (fun n => leafCountList n.children)).sum := by
  induction ns with
  | nil => simp [leafCountList]
  | cons n rest ih =>
      rw [List.map_cons, leafCountList_cons, List.map_cons, List.sum_cons, ih]
      simp [TreeNode.ofGroup, leafCountOne, leafCountList]

theorem countsOkList_map_ofGroup (ns : List GroupNode) :
    countsOkList (ns.map TreeNode.ofGroup) =
      ns.all (fun n => (n.count == leafCountList n.children) && countsOkList n.children) := by
  induction ns with
  | nil => simp [countsOkList]
  | cons n rest ih =>
      rw [List.map_cons, countsOkList_cons, List.all_cons, ih]
      simp [TreeNode.ofGroup, countsOkOne, countsOkList, Bool.and_assoc]

theorem groupRecursive_counts (specs : List GroupSpec) :
    ∀ (today : Int) (level : Nat) (items : List WorkItem),
      countsOkList (groupRecursive today specs level items) = true ∧
        leafCountList (groupRecursive today specs level items) = items.length := by
  induction specs with
  | nil =>
      intro today level items
      constructor
      · simp [groupRecursive, countsOkList_map_workItem]
      · rw [groupRecursive, leafCountList_map_workItem]
        simp only [sortWorkItems]
        rw [(jsSortBy_perm cmpWorkItems (items.map toWorkItemNode)).length_eq]
        simp
  | cons spec rest ih =>
      intro today level items
      have hperm : ((sortGroups (List.map (fun g =>
          (⟨g.1, g.1, countWorkItems (groupRecursive today rest (level + 1) g.2),
            groupRecursive today rest (level + 1) g.2, level⟩ : GroupNode))
            (partitionByKey today spec items)) spec).map TreeNode.ofGroup).Perm
          ((List.map (fun g =>
          (⟨g.1, g.1, countWorkItems (groupRecursive today rest (level + 1) g.2),
            groupRecursive today rest (level + 1) g.2, level⟩ : GroupNode))
            (partitionByKey today spec items)).map TreeNode.ofGroup) :=
        (jsSortBy_perm _ _).map TreeNode.ofGroup
      constructor
      · rw [groupRecursive, countsOkList_perm hperm, countsOkList_map_ofGroup]
        rw [List.all_eq_true]
        intro n hn
        rw [List.mem_map] at hn
        obtain ⟨p, _, rfl⟩ := hn
        have hch := ih today (level + 1) p.2
        simp only [Bool.and_eq_true, beq_iff_eq]
        exact ⟨countWorkItems_eq_leafCount hch.1, hch.1⟩
      · rw [groupRecursive, leafCountList_perm hperm, leafCountList_map_ofGroup]
        have hmaps : (List.map (fun n => leafCountList n.children) (List.map (fun g =>
            (⟨g.1, g.1, countWorkItems (groupRecursive today rest (level + 1) g.2),
              groupRecursive today rest (level + 1) g.2, level⟩ : GroupNode))
              (partitionByKey today spec items))) =
            List.map (fun p => p.2.length) (partitionByKey today spec items) := by
          rw [List.map_map]
          apply List.map_congr_left
          intro p hp
          exact (ih today (level + 1) p.2).2
        rw [hmaps]
        exact partition_sizes today spec items

/-- C2: in every tree `buildTree` returns, every `GroupNode`'s stored
`count` equals the number of `WorkItemNode` leaves in its subtree, and for
every non-empty rule list the sum of `count` over the top-level nodes
equals the number of input records. -/
theorem c2_counts_invariant :
    ∀ (today : Int) (items : List WorkItem) (specs : List GroupSpec),
      countsOkList (buildTree today items specs) = true ∧
        (specs ≠ [] → sumCounts (buildTree today items specs) = items.length) := by
  intro today items specs
  cases specs with
  | nil =>
      constructor
      · simp [buildTree, countsOkList_map_workItem]
      · intro h
        exact absurd rfl h
  | cons spec rest =>
      have hb : buildTree today items (spec :: rest) =
          groupRecursive today (spec :: rest) 0 items := rfl
      have hc := groupRecursive_counts (spec :: rest) today 0 items
      rw [hb]
      exact ⟨hc.1, fun _ => (sumCounts_eq_leafCount hc.1).trans hc.2⟩

/-- C2 witness: two records grouped by one rule — counts are correct and
the top-level counts sum to the number of records. -/
theorem c2_witness :
    countsOkList (buildTree 0 [hashWi1, hashWi2] [plainSpec]) = true ∧
      sumCounts (buildTree 0 [hashWi1, hashWi2] [plainSpec]) =
        ([hashWi1, hashWi2] : List WorkItem).length :=
  ⟨(c2_counts_invariant 0 [hashWi1, hashWi2] [plainSpec]).1,
   (c2_counts_invariant 0 [hashWi1, hashWi2] [plainSpec]).2 (by simp)⟩

/-- Updating one field of one record (`record.fields[f] = v`). -/
def setWIField (wi : WorkItem) (f : String) (v : FieldValue) : WorkItem :=
  ⟨wi.id, setField wi.fields f v, wi.url, wi.linksHtmlHref⟩

/-- Updating one field of the `i`-th record of a record list. -/
def updateRecordField : List WorkItem → Nat → String → FieldValue → List WorkItem
  | [], _, _, _ => []
  | wi :: ws, 0, f, v => setWIField wi f v :: ws
  | wi :: ws, i + 1, f, v => wi :: updateRecordField ws i f v

theorem fieldLookup_setField_self (fs : List (String × FieldValue)) (f : String)
    (v : FieldValue) : fieldLookup (setField fs f v) f = v := by
  induction fs with
  | nil => simp [setField, fieldLookup]
  | cons p rest ih =>
      simp only [setField]
      split
      · rename_i h
        simp [fieldLookup, h]
      · simp only [fieldLookup]
        rename_i h
        rw [if_neg h, ih]

theorem fieldLookup_setField_ne (fs : List (String × FieldValue)) {f g : String}
    (v : FieldValue) (hne : g ≠ f) :
    fieldLookup (setField fs f v) g = fieldLookup fs g := by
  induction fs with
  | nil =>
      simp only [setField, fieldLookup]
      rw [if_neg (fun h => hne h.symm)]
  | cons p rest ih =>
      simp only [setField]
      split
      · rename_i h
        simp only [fieldLookup]
        rw [if_neg (by rw [h]; exact fun h2 => hne h2.symm), if_neg (by rw [h]; exact fun h2 => hne h2.symm)]
      · simp only [fieldLookup]
        split
        · rfl
        · exact ih

theorem updateRecordField_map_id (ws : List WorkItem) (i : Nat) (f : String)
    (v : FieldValue) :
    (updateRecordField ws i f v).map WorkItem.id = ws.map WorkItem.id := by
  induction ws generalizing i with
  | nil => rfl
  | cons wi rest ih =>
      cases i with
      | zero => simp [updateRecordField, setWIField]
      | succ j => simp [updateRecordField, ih]

theorem updateRecordField_map_congr {β : Type} (ws : List WorkItem) (i : Nat) (f : String)
    (v : FieldValue) (hfun : WorkItem → β)
    (hh : ∀ wi, hfun (setWIField wi f v) = hfun wi) :
    (updateRecordField ws i f v).map hfun = ws.map hfun := by
  induction ws generalizing i with
  | nil => rfl
  | cons wi rest ih =>
      cases i with
      | zero => simp [updateRecordField, hh]
      | succ j => simp [updateRecordField, ih]

theorem updateRecordField_getElem (ws : List WorkItem) (i : Nat) (f : String)
    (v : FieldValue) :
    (updateRecordField ws i f v)[i]? = ws[i]?.map (fun wi => setWIField wi f v) := by
  induction ws generalizing i with
  | nil => simp [updateRecordField]
  | cons wi rest ih =>
      cases i with
      | zero => simp [updateRecordField]
      | succ j => simpa [updateRecordField] using ih j

theorem jsJoin_cons_of_ne_nil (sep x : String) {l : List String} (h : l ≠ []) :
    jsJoin sep (x :: l) = x ++ sep ++ jsJoin sep l := by
  cases l with
  | nil => exact absurd rfl h
  | cons y ys => rfl

theorem jsJoin_length (sep : String) :
    ∀ (l : List String), l ≠ [] →
      (jsJoin sep l).length = (l.map String.length).sum + sep.length * (l.length - 1) := by
  intro l
  induction l with
  | nil => intro h; exact absurd rfl h
  | cons x rest ih =>
      intro _
      cases rest with
      | nil => simp [jsJoin]
      | cons y ys =>
          rw [jsJoin_cons_of_ne_nil sep x (by simp)]
          have hlen := ih (by simp)
          simp only [String.length_append, hlen, List.map_cons, List.sum_cons,
            List.length_cons, Nat.add_sub_cancel]
          rw [Nat.mul_succ]
          omega

theorem jsJoin_maps_ne_of_len_eq (sep : String) (g h : String → String) (f : String)
    (hoth : ∀ x, x ≠ f → g x = h x) (hne : g f ≠ h f)
    (hlen : (g f).length = (h f).length) :
    ∀ (fields : List String), f ∈ fields →
      jsJoin sep (fields.map g) ≠ jsJoin sep (fields.map h) := by
  intro fields
  induction fields with
  | nil => simp
  | cons x rest ih =>
      intro hmem heq
      by_cases hx : x = f
      · subst hx
        cases rest with
        | nil => exact hne (by simpa [jsJoin] using heq)
        | cons y ys =>
            simp only [List.map_cons] at heq
            rw [jsJoin_cons_of_ne_nil sep (g x) (by simp),
              jsJoin_cons_of_ne_nil sep (h x) (by simp)] at heq
            have hdata := congrArg String.data heq
            simp only [String.data_append, List.append_assoc] at hdata
            have hsplit := List.append_inj hdata hlen
            exact hne (String.ext hsplit.1)
      · have hf2 : f ∈ rest := by
          rcases List.mem_cons.mp hmem with h1 | h1
          · exact absurd h1.symm hx
          · exact h1
        cases rest with
        | nil => cases hf2
        | cons y ys =>
            simp only [List.map_cons] at heq
            rw [jsJoin_cons_of_ne_nil sep (g x) (by simp),
              jsJoin_cons_of_ne_nil sep (h x) (by simp), hoth x hx] at heq
            have hdata := congrArg String.data heq
            simp only [String.data_append, List.append_assoc] at hdata
            have htail := List.append_cancel_left hdata
            have htail2 := List.append_cancel_left htail
            exact ih hf2 (String.ext htail2)

theorem jsJoin_maps_ne (sep : String) (g h : String → String) (f : String)
    (hoth : ∀ x, x ≠ f → g x = h x) (hne : g f ≠ h f) :
    ∀ (fields : List String), f ∈ fields →
      jsJoin sep (fields.map g) ≠ jsJoin sep (fields.map h) := by
  intro fields hmem
  by_cases hlen : (g f).length = (h f).length
  · exact jsJoin_maps_ne_of_len_eq sep g h f hoth hne hlen fields hmem
  · intro heq
    have hmg : fields.map g ≠ [] := by
      cases fields
      · cases hmem
      · simp
    have hmh : fields.map h ≠ [] := by
      cases fields
      · cases hmem
      · simp
    have hlens := congrArg String.length heq
    rw [jsJoin_length sep _ hmg, jsJoin_length sep _ hmh, List.length_map,
      List.length_map] at hlens
    have hsum : ((fields.map g).map String.length).sum =
        ((fields.map h).map String.length).sum := by omega
    rw [List.map_map, List.map_map] at hsum
    rcases Nat.lt_or_ge (g f).length (h f).length with hlt | hge
    · have : (fields.map (String.length ∘ g)).sum < (fields.map (String.length ∘ h)).sum := by
        apply List.sum_lt_sum
        · intro i hi
          by_cases hif : i = f
          · subst hif
            exact Nat.le_of_lt hlt
          · rw [Function.comp, Function.comp, hoth i hif]
        · exact ⟨f, hmem, hlt⟩
      omega
    · have hlt2 : (h f).length < (g f).length := by omega
      have : (fields.map (String.length ∘ h)).sum < (fields.map (String.length ∘ g)).sum := by
        apply List.sum_lt_sum
        · intro i hi
          by_cases hif : i = f
          · subst hif
            exact Nat.le_of_lt hlt2
          · rw [Function.comp, Function.comp, hoth i hif]
        · exact ⟨f, hmem, hlt2⟩
      omega

/-- A record whose tracked field is null. -/
def c5wiNull : WorkItem := ⟨1, [("f", .vNull)], Option.none, Option.none⟩

/-- The same record with the tracked field changed to the empty string. -/
def c5wiEmpty : WorkItem := ⟨1, [("f", .vStr "")], Option.none, Option.none⟩

/-- C5 counterexample: changing the value of a field named by a rule does
NOT always change the fingerprint — `String(value ?? '')` collapses `null`
and `''` (and likewise `undefined`), so this tracked-field change leaves
`computeHash` unchanged. -/
theorem c5_counterexample_tracked_change_not_detected :
    computeHash [c5wiNull] hashSpecs = computeHash [c5wiEmpty] hashSpecs ∧
      "f" ∈ hashSpecs.map GroupSpec.field ∧
      fieldLookup c5wiNull.fields "f" ≠ fieldLookup c5wiEmpty.fields "f" :=
  ⟨by decide, by decide, fun h => FieldValue.noConfusion h⟩

/-- The state of `AdoTreeProvider` relevant to `refresh()`: the generation
counter, the `isLoading` flag, the committed `cachedQueries` (abstracted to
the list of loaded query results), and the in-flight request, when one
exists, as its captured generation, its still-pending queries, and the
query nodes it has built so far. -/
structure ProviderState where
  currentGeneration : Nat
  isLoading : Bool
  cachedQueries : List Nat
  inFlight : Option (Nat × List Nat × List Nat)
deriving DecidableEq

/-- The synchronous prefix of `AdoTreeProvider.refresh()`: skip when already
loading; otherwise increment the generation, and either clear the cache and
return (no configured queries) or mark loading and start the per-query
loop.  `queries` abstracts the active query list (element `q` loads to
query node `q`). -/
def requestRefresh (s : ProviderState) (queries : List Nat) : ProviderState :=
  if s.isLoading then s
  else if queries = [] then
    ⟨s.currentGeneration + 1, s.isLoading, [], s.inFlight⟩
  else
    ⟨s.currentGeneration + 1, true, s.cachedQueries, some (s.currentGeneration + 1, queries, [])⟩

/-- One `await` resumption of the in-flight `refresh()`: the staleness
check `generation !== this.currentGeneration` (early return, whose
`finally` leaves `isLoading` untouched because the generations differ);
else either load the next query or, when the loop is done, commit
`cachedQueries` and let `finally` clear `isLoading`. -/
def stepRefresh (s : ProviderState) : ProviderState :=
  match s.inFlight with
  | Option.none => s
  | some (g, pending, built) =>
      if g ≠ s.currentGeneration then
        ⟨s.currentGeneration, s.isLoading, s.cachedQueries, Option.none⟩
      else
        match pending with
        | [] => ⟨s.currentGeneration, false, built, Option.none⟩
        | q :: rest =>
            ⟨s.currentGeneration, s.isLoading, s.cachedQueries, some (g, rest, built ++ [q])⟩

/-- An externally observable event: a refresh request, or the resumption of
the in-flight request's next `await`. -/
inductive RefreshEvent where
  | request : List Nat → RefreshEvent
  | step : RefreshEvent

/-- Run a sequence of events against the provider state. -/
def runRefresh (s : ProviderState) : List RefreshEvent → ProviderState
  | [] => s
  | e :: es =>
      runRefresh
        (match e with
         | .request qs => requestRefresh s qs
         | .step => stepRefresh s) es

/-- The provider's initial state. -/
def initProvider : ProviderState := ⟨0, false, [], Option.none⟩

/-- The inductive invariant of the refresh machine: an in-flight request
always carries the live generation (so the stale-discard branch never
fires), and one exists only while `isLoading`. -/
def ProviderInv (s : ProviderState) : Prop :=
  ∀ g pending built, s.inFlight = some (g, pending, built) →
    g = s.currentGeneration ∧ s.isLoading = true

/-- C6 counterexample: a refresh requested while an older refresh is in
flight is DROPPED (the `isLoading` guard returns immediately, a no-op), and
the older request's results are the ones committed — the newer request does
not supersede it. -/
theorem c6_counterexample_newer_request_dropped :
    requestRefresh (runRefresh initProvider [.request [10]]) [20] =
        runRefresh initProvider [.request [10]] ∧
      (runRefresh initProvider [.request [10], .request [20], .step, .step]).cachedQueries =
        [10] := by
  constructor
  · decide
  · decide

theorem providerInv_request (s : ProviderState) (qs : List Nat) (h : ProviderInv s) :
    ProviderInv (requestRefresh s qs) := by
  intro g pending built
  unfold requestRefresh
  by_cases hl : s.isLoading
  · rw [if_pos hl]
    exact h g pending built
  · rw [if_neg hl]
    by_cases hq : qs = []
    · rw [if_pos hq]
      intro hf
      have := h g pending built hf
      exact absurd this.2 hl
    · rw [if_neg hq]
      intro hf
      have h1 := Option.some.inj hf
      refine ⟨?_, rfl⟩
      have h2 := congrArg (fun p => p.1) h1
      simpa using h2.symm

theorem providerInv_step (s : ProviderState) (h : ProviderInv s) :
    ProviderInv (stepRefresh s) := by
  intro g pending built
  cases hf : s.inFlight with
  | none =>
      simp only [stepRefresh, hf]
      intro hx
      cases hx
  | some t =>
      obtain ⟨g0, pending0, built0⟩ := t
      have hInv := h g0 pending0 built0 hf
      simp only [stepRefresh, hf]
      rw [if_neg (by simp [hInv.1])]
      cases pending0 with
      | nil => intro hx; cases hx
      | cons q rest =>
          intro hx
          have h1 := Option.some.inj hx
          have hg := congrArg (fun p => p.1) h1
          refine ⟨?_, hInv.2⟩
          simpa [hInv.1] using hg.symm

theorem providerInv_run (evs : List RefreshEvent) :
    ∀ (s : ProviderState), ProviderInv s → ProviderInv (runRefresh s evs) := by
  induction evs with
  | nil => intro s h; exact h
  | cons e es ih =>
      intro s h
      cases e with
      | request qs => exact ih _ (providerInv_request s qs h)
      | step => exact ih _ (providerInv_step s h)

/-- C6 amended: a refresh requested while an older refresh is in flight is
dropped, not queued and not superseding — `refresh` is a no-op whenever
`isLoading` is set.  Consequently, in every reachable state the in-flight
request's captured generation equals the live counter, so its results are
never discarded as stale: when its loop completes, they are committed. -/
theorem c6_amended_inflight_refresh_drops_newer :
    (∀ (s : ProviderState) (qs : List Nat), s.isLoading = true → requestRefresh s qs = s) ∧
    (∀ (evs : List RefreshEvent) (g : Nat) (pending built : List Nat),
        (runRefresh initProvider evs).inFlight = some (g, pending, built) →
        g = (runRefresh initProvider evs).currentGeneration) ∧
    (∀ (s : ProviderState) (g : Nat) (built : List Nat),
        s.inFlight = some (g, [], built) → g = s.currentGeneration →
        (stepRefresh s).cachedQueries = built ∧ (stepRefresh s).isLoading = false) := by
  refine ⟨?_, ?_, ?_⟩
  · intro s qs h
    unfold requestRefresh
    rw [if_pos h]
  · intro evs g pending built hf
    have hInv := providerInv_run evs initProvider (by intro g2 p2 b2 hx; cases hx)
    exact (hInv g pending built hf).1
  · intro s g built hf hg
    simp only [stepRefresh, hf]
    rw [if_neg (by simp [hg])]
    exact ⟨rfl, rfl⟩

/-- C6 amended, witness: the second request in the counterexample trace is
a no-op; the in-flight generation matches the live counter after the trace
prefix; and completing that in-flight request commits its results. -/
theorem c6_amended_witness :
    requestRefresh ⟨1, true, [], some (1, [10], [])⟩ [20] =
        (⟨1, true, [], some (1, [10], [])⟩ : ProviderState) ∧
      (1 : Nat) =
        (runRefresh initProvider [.request [10], .request [20], .step]).currentGeneration ∧
      (stepRefresh ⟨1, true, [], some (1, [], [10])⟩).cachedQueries = [10] ∧
      (stepRefresh ⟨1, true, [], some (1, [], [10])⟩).isLoading = false :=
  ⟨c6_amended_inflight_refresh_drops_newer.1 ⟨1, true, [], some (1, [10], [])⟩ [20] rfl,
   c6_amended_inflight_refresh_drops_newer.2.1 [.request [10], .request [20], .step]
     1 [] [10] (by decide),
   c6_amended_inflight_refresh_drops_newer.2.2 ⟨1, true, [], some (1, [], [10])⟩ 1 [10]
     rfl rfl⟩

theorem digitChar_isDigit {k : Nat} (h : k < 10) : (Nat.digitChar k).isDigit = true := by
  interval_cases k <;> decide

theorem toDigitsCore_digits :
    ∀ (f n : Nat) (ds : List Char), (∀ c ∈ ds, c.isDigit = true) →
      ∀ c ∈ Nat.toDigitsCore 10 f n ds, c.isDigit = true := by
  intro f
  induction f with
  | zero =>
      intro n ds hds
      simpa [Nat.toDigitsCore] using hds
  | succ f ih =>
      intro n ds hds c hc
      rw [Nat.toDigitsCore] at hc
      by_cases hdiv : n / 10 = 0
      · rw [if_pos hdiv] at hc
        rcases List.mem_cons.mp hc with h1 | h1
        · rw [h1]
          exact digitChar_isDigit (Nat.mod_lt n (by omega))
        · exact hds c h1
      · rw [if_neg hdiv] at hc
        refine ih (n / 10) _ ?_ c hc
        intro c2 hc2
        rcases List.mem_cons.mp hc2 with h1 | h1
        · rw [h1]
          exact digitChar_isDigit (Nat.mod_lt n (by omega))
        · exact hds c2 h1

theorem toString_nat_digits (n : Nat) : ∀ c ∈ (toString n).data, c.isDigit = true := by
  have hd : (toString n).data = Nat.toDigitsCore 10 (n + 1) n [] := rfl
  rw [hd]
  exact toDigitsCore_digits (n + 1) n [] (by simp)

theorem mem_jsJoin {c : Char} (sep : String) :
    ∀ (l : List String), c ∈ (jsJoin sep l).data →
      c ∈ sep.data ∨ ∃ s ∈ l, c ∈ s.data := by
  intro l
  induction l with
  | nil => simp [jsJoin]
  | cons x rest ih =>
      cases rest with
      | nil =>
          intro h
          exact Or.inr ⟨x, by simp, by simpa [jsJoin] using h⟩
      | cons y ys =>
          intro h
          rw [jsJoin_cons_of_ne_nil sep x (by simp)] at h
          simp only [String.data_append, List.mem_append] at h
          rcases h with (h1 | h1) | h1
          · exact Or.inr ⟨x, by simp, h1⟩
          · exact Or.inl h1
          · rcases ih h1 with h2 | ⟨s, hs, hcs⟩
            · exact Or.inl h2
            · exact Or.inr ⟨s, by simp [List.mem_cons.mp hs], hcs⟩

theorem append_split_at_first {P : Char → Prop} :
    ∀ (a1 a2 r1 r2 : List Char),
      a1 ++ r1 = a2 ++ r2 →
      (∀ c ∈ a1, ¬ P c) → (∀ c ∈ a2, ¬ P c) →
      (∀ c, r1.head? = some c → P c) → (∀ c, r2.head? = some c → P c) →
      a1 = a2 ∧ r1 = r2 := by
  intro a1
  induction a1 with
  | nil =>
      intro a2 r1 r2 heq h1 h2 hr1 hr2
      cases a2 with
      | nil => exact ⟨rfl, heq⟩
      | cons y a2t =>
          exfalso
          simp only [List.nil_append, List.cons_append] at heq
          have hy : P y := hr1 y (by rw [heq]; rfl)
          exact h2 y (by simp) hy
  | cons x a1t ih =>
      intro a2 r1 r2 heq h1 h2 hr1 hr2
      cases a2 with
      | nil =>
          exfalso
          simp only [List.nil_append, List.cons_append] at heq
          have hx : P x := hr2 x (by rw [← heq]; rfl)
          exact h1 x (by simp) hx
      | cons y a2t =>
          simp only [List.cons_append, List.cons.injEq] at heq
          obtain ⟨hxy, htail⟩ := heq
          obtain ⟨he, hr⟩ := ih a2t r1 r2 htail
            (fun c hc => h1 c (by simp [hc]))
            (fun c hc => h2 c (by simp [hc])) hr1 hr2
          exact ⟨by rw [hxy, he], hr⟩

/-- The value of a lowercase hexadecimal digit character. -/
def hexVal (c : Char) : Nat :=
  if c.toNat < Char.toNat 'a' then c.toNat - Char.toNat '0'
  else c.toNat - Char.toNat 'a' + 10

theorem hexVal_hexDigit {k : Nat} (h : k < 16) : hexVal (hexDigit k) = k := by
  interval_cases k <;> decide

theorem hexDigit_ne {k : Nat} (h : k < 16) : hexDigit k ≠ '"' ∧ hexDigit k ≠ '\\' := by
  interval_cases k <;> exact ⟨by decide, by decide⟩

theorem jsonEscapeChar_ne_nil (c : Char) : jsonEscapeChar c ≠ [] := by
  unfold jsonEscapeChar
  split_ifs <;> simp

theorem hexDigit_inj {k1 k2 : Nat} (h1 : k1 < 16) (h2 : k2 < 16)
    (h : hexDigit k1 = hexDigit k2) : k1 = k2 := by
  rw [← hexVal_hexDigit h1, ← hexVal_hexDigit h2, h]

theorem char_toNat_inj {c1 c2 : Char} (h : c1.toNat = c2.toNat) : c1 = c2 := by
  rw [← Char.ofNat_toNat c1, ← Char.ofNat_toNat c2, h]

theorem jsonEscapeChar_shape (c : Char) :
    (jsonEscapeChar c = ['\\', '"'] ∧ c = '"') ∨
    (jsonEscapeChar c = ['\\', '\\'] ∧ c = '\\') ∨
    (jsonEscapeChar c = ['\\', 'n'] ∧ c = '\n') ∨
    (jsonEscapeChar c = ['\\', 'r'] ∧ c = '\r') ∨
    (jsonEscapeChar c = ['\\', 't'] ∧ c = '\t') ∨
    (jsonEscapeChar c = ['\\', 'b'] ∧ c = '\x08') ∨
    (jsonEscapeChar c = ['\\', 'f'] ∧ c = '\x0c') ∨
    (jsonEscapeChar c =
        ['\\', 'u', '0', '0', hexDigit (c.toNat / 16), hexDigit (c.toNat % 16)] ∧
      c.toNat < 32) ∨
    (jsonEscapeChar c = [c] ∧ c ≠ '\\') := by
  unfold jsonEscapeChar
  split_ifs with h1 h2 h3 h4 h5 h6 h7 h8
  · exact Or.inl ⟨rfl, h1⟩
  · exact Or.inr (Or.inl ⟨rfl, h2⟩)
  · exact Or.inr (Or.inr (Or.inl ⟨rfl, h3⟩))
  · exact Or.inr (Or.inr (Or.inr (Or.inl ⟨rfl, h4⟩)))
  · exact Or.inr (Or.inr (Or.inr (Or.inr (Or.inl ⟨rfl, h5⟩))))
  · exact Or.inr (Or.inr (Or.inr (Or.inr (Or.inr (Or.inl ⟨rfl, h6⟩)))))
  · exact Or.inr (Or.inr (Or.inr (Or.inr (Or.inr (Or.inr (Or.inl ⟨rfl, h7⟩))))))
  · exact Or.inr (Or.inr (Or.inr (Or.inr (Or.inr (Or.inr (Or.inr (Or.inl ⟨rfl, h8⟩)))))))
  · exact Or.inr (Or.inr (Or.inr (Or.inr (Or.inr (Or.inr (Or.inr (Or.inr ⟨rfl, h2⟩)))))))

set_option maxHeartbeats 1000000 in
theorem jsonEscapeChar_prefix (c1 c2 : Char) (E1 E2 : List Char)
    (h : jsonEscapeChar c1 ++ E1 = jsonEscapeChar c2 ++ E2) : c1 = c2 ∧ E1 = E2 := by
  rcases jsonEscapeChar_shape c1 with ⟨e1, p1⟩ | ⟨e1, p1⟩ | ⟨e1, p1⟩ | ⟨e1, p1⟩ |
    ⟨e1, p1⟩ | ⟨e1, p1⟩ | ⟨e1, p1⟩ | ⟨e1, p1⟩ | ⟨e1, p1⟩ <;>
  rcases jsonEscapeChar_shape c2 with ⟨e2, p2⟩ | ⟨e2, p2⟩ | ⟨e2, p2⟩ | ⟨e2, p2⟩ |
    ⟨e2, p2⟩ | ⟨e2, p2⟩ | ⟨e2, p2⟩ | ⟨e2, p2⟩ | ⟨e2, p2⟩ <;>
  · rw [e1, e2] at h
    simp at h
    try exact h
    try exact absurd h.1.symm p2
    try exact absurd h.1 p1
    try
      obtain ⟨ha, hb, hE⟩ := h
      refine ⟨char_toNat_inj ?_, hE⟩
      have hdiv : c1.toNat / 16 = c2.toNat / 16 := hexDigit_inj (by omega) (by omega) ha
      have hmod : c1.toNat % 16 = c2.toNat % 16 :=
        hexDigit_inj (Nat.mod_lt _ (by omega)) (Nat.mod_lt _ (by omega)) hb
      omega
    try simp_all

theorem jsonEscapeList_ne_nil {cs : List Char} (h : cs ≠ []) : jsonEscapeList cs ≠ [] := by
  cases cs with
  | nil => exact absurd rfl h
  | cons c t =>
      show jsonEscapeChar c ++ jsonEscapeList t ≠ []
      simp [jsonEscapeChar_ne_nil c]

theorem jsonEscapeList_inj : ∀ {cs1 cs2 : List Char},
    jsonEscapeList cs1 = jsonEscapeList cs2 → cs1 = cs2 := by
  intro cs1
  induction cs1 with
  | nil =>
      intro cs2 h
      by_contra hne
      exact jsonEscapeList_ne_nil (fun hn => hne (by rw [hn])) h.symm
  | cons c1 t1 ih =>
      intro cs2 h
      cases cs2 with
      | nil => exact absurd h (jsonEscapeList_ne_nil (by simp))
      | cons c2 t2 =>
          have h2 : jsonEscapeChar c1 ++ jsonEscapeList t1 =
              jsonEscapeChar c2 ++ jsonEscapeList t2 := h
          obtain ⟨hc, hE⟩ := jsonEscapeChar_prefix c1 c2 _ _ h2
          rw [hc, ih hE]

theorem scanRaw_quote (rest : List Char) : scanRaw ('"' :: rest) = some ([], rest) := by
  simp [scanRaw, scanRawAux]

theorem scanRaw_escaped (x : Char) (rest : List Char) :
    scanRaw ('\\' :: x :: rest) =
      (scanRaw rest).map (fun p => ('\\' :: x :: p.1, p.2)) := by
  cases hr : scanRawAux false rest <;> simp [scanRaw, scanRawAux, hr]

theorem scanRaw_plain {c : Char} (h1 : c ≠ '"') (h2 : c ≠ '\\') (rest : List Char) :
    scanRaw (c :: rest) = (scanRaw rest).map (fun p => (c :: p.1, p.2)) := by
  simp [scanRaw, scanRawAux, h1, h2]

theorem scanRaw_escape_roundtrip : ∀ (cs L : List Char),
    scanRaw (jsonEscapeList cs ++ '"' :: L) = some (jsonEscapeList cs, L) := by
  intro cs
  induction cs with
  | nil =>
      intro L
      simpa [jsonEscapeList] using scanRaw_quote L
  | cons c t ih =>
      intro L
      have hlist : jsonEscapeList (c :: t) = jsonEscapeChar c ++ jsonEscapeList t := rfl
      rcases jsonEscapeChar_shape c with ⟨e, p⟩ | ⟨e, p⟩ | ⟨e, p⟩ | ⟨e, p⟩ |
        ⟨e, p⟩ | ⟨e, p⟩ | ⟨e, p⟩ | ⟨e, p⟩ | ⟨e, p⟩
      · rw [hlist, e]; simp [scanRaw_escaped, ih]
      · rw [hlist, e]; simp [scanRaw_escaped, ih]
      · rw [hlist, e]; simp [scanRaw_escaped, ih]
      · rw [hlist, e]; simp [scanRaw_escaped, ih]
      · rw [hlist, e]; simp [scanRaw_escaped, ih]
      · rw [hlist, e]; simp [scanRaw_escaped, ih]
      · rw [hlist, e]; simp [scanRaw_escaped, ih]
      · have hne1 := hexDigit_ne (show c.toNat / 16 < 16 by omega)
        have hne2 := hexDigit_ne (show c.toNat % 16 < 16 by omega)
        rw [hlist, e]
        simp [scanRaw_escaped, scanRaw_plain hne1.1 hne1.2, scanRaw_plain hne2.1 hne2.2,
          scanRaw_plain (show ('0' : Char) ≠ '"' by decide)
            (show ('0' : Char) ≠ '\\' by decide), ih]
      · have hq : c ≠ '"' := by
          intro hEq
          rw [hEq] at e
          exact absurd e (by decide)
        rw [hlist, e]
        simp [scanRaw_plain hq p, ih]

theorem jsonQuote_data (s : String) :
    (jsonQuote s).data = '"' :: (jsonEscapeList s.data ++ ['"']) := rfl

theorem escQuote_split {s1 s2 : String} {r1 r2 : List Char}
    (h : (jsonQuote s1).data ++ r1 = (jsonQuote s2).data ++ r2) :
    s1 = s2 ∧ r1 = r2 := by
  rw [jsonQuote_data, jsonQuote_data] at h
  simp only [List.cons_append, List.cons.injEq, List.append_assoc,
    List.singleton_append] at h
  obtain ⟨-, h⟩ := h
  have h2 := congrArg scanRaw h
  rw [scanRaw_escape_roundtrip, scanRaw_escape_roundtrip] at h2
  have h3 := Option.some.inj h2
  exact ⟨String.ext (jsonEscapeList_inj (congrArg Prod.fst h3)), congrArg Prod.snd h3⟩

theorem jsJoin_quote_cons2_data (x y : String) (ys : List String) :
    (jsJoin "," ((x :: y :: ys).map jsonQuote)).data =
      (jsonQuote x).data ++ ',' :: (jsJoin "," ((y :: ys).map jsonQuote)).data := by
  rw [List.map_cons, jsJoin_cons_of_ne_nil "," (jsonQuote x) (by simp)]
  have hcomma : ("," : String).data = [','] := rfl
  simp [String.data_append, hcomma]

theorem jsJoin_quote_data_ne_nil (x : String) (t : List String) :
    (jsJoin "," ((x :: t).map jsonQuote)).data ≠ [] := by
  cases t with
  | nil =>
      show (jsonQuote x).data ≠ []
      rw [jsonQuote_data]
      simp
  | cons y ys =>
      rw [jsJoin_quote_cons2_data, jsonQuote_data]
      simp

theorem jsJoin_quote_inj : ∀ (l1 l2 : List String),
    (jsJoin "," (l1.map jsonQuote)).data = (jsJoin "," (l2.map jsonQuote)).data →
    l1 = l2 := by
  intro l1
  induction l1 with
  | nil =>
      intro l2 h
      cases l2 with
      | nil => rfl
      | cons x t => exact absurd h.symm (jsJoin_quote_data_ne_nil x t)
  | cons x1 t1 ih =>
      intro l2 h
      cases l2 with
      | nil => exact absurd h (jsJoin_quote_data_ne_nil x1 t1)
      | cons x2 t2 =>
          cases t1 with
          | nil =>
              cases t2 with
              | nil =>
                  obtain ⟨hx, -⟩ := escQuote_split
                    (show (jsonQuote x1).data ++ [] = (jsonQuote x2).data ++ [] by
                      rw [List.append_nil, List.append_nil]; exact h)
                  rw [hx]
              | cons y2 ys2 =>
                  exfalso
                  rw [jsJoin_quote_cons2_data] at h
                  obtain ⟨-, h2⟩ := escQuote_split
                    (show (jsonQuote x1).data ++ [] = (jsonQuote x2).data ++
                        ',' :: (jsJoin "," ((y2 :: ys2).map jsonQuote)).data by
                      rw [List.append_nil]; exact h)
                  simp at h2
          | cons y1 ys1 =>
              cases t2 with
              | nil =>
                  exfalso
                  rw [jsJoin_quote_cons2_data] at h
                  obtain ⟨-, h2⟩ := escQuote_split
                    (show (jsonQuote x1).data ++
                        ',' :: (jsJoin "," ((y1 :: ys1).map jsonQuote)).data =
                        (jsonQuote x2).data ++ [] by
                      rw [List.append_nil]; exact h)
                  simp at h2
              | cons y2 ys2 =>
                  rw [jsJoin_quote_cons2_data, jsJoin_quote_cons2_data] at h
                  obtain ⟨hx, h2⟩ := escQuote_split h
                  have h3 : (jsJoin "," ((y1 :: ys1).map jsonQuote)).data =
                      (jsJoin "," ((y2 :: ys2).map jsonQuote)).data := by
                    simpa using h2
                  rw [hx, ih (y2 :: ys2) h3]

theorem jsonStringifyHash_snd_inj (p q : List Nat × List String)
    (h : jsonStringifyHash p = jsonStringifyHash q) : p.2 = q.2 := by
  have hdata := congrArg String.data h
  simp only [jsonStringifyHash, String.data_append, List.append_assoc] at hdata
  have hcan := List.append_cancel_left hdata
  have hnotA : ∀ (l : List Nat), ∀ c ∈ (jsJoin "," (l.map toString)).data, ¬ c = ']' := by
    intro l c hc hcE
    rcases mem_jsJoin "," (l.map toString) hc with h1 | ⟨s, hs, hcs⟩
    · rw [hcE] at h1
      exact absurd h1 (by decide)
    · obtain ⟨n, hn, rfl⟩ := List.mem_map.mp hs
      have hdig := toString_nat_digits n c hcs
      rw [hcE] at hdig
      exact absurd hdig (by decide)
  have hhead : ∀ (X : List Char) (c : Char),
      ((("],\"fieldValues\":[" : String).data ++ X).head? = some c) → c = ']' := by
    intro X c hc
    have hh : (("],\"fieldValues\":[" : String).data ++ X).head? = some ']' := rfl
    rw [hh] at hc
    exact (Option.some.inj hc).symm
  obtain ⟨hA, hrest⟩ := append_split_at_first
    (jsJoin "," (p.1.map toString)).data (jsJoin "," (q.1.map toString)).data
    _ _ hcan (hnotA p.1) (hnotA q.1) (hhead _) (hhead _)
  have hMB := List.append_cancel_left hrest
  have hB := List.append_cancel_right hMB
  exact jsJoin_quote_inj p.2 q.2 hB

theorem computeHashData_snd_length (ws : List WorkItem) (specs : List GroupSpec) :
    (computeHashData ws specs).2.length = ws.length := by
  simp [computeHashData]

/-- C5 amended: (1) changing a field not named by any grouping rule never
changes the fingerprint; (2) changing a rule-named field of a record to a
value whose JavaScript string coercion differs changes the fingerprint
(the hash string itself); (3) adding or removing any record changes the
fingerprint.  Tracked changes are thus detected exactly up to the
`String(value ?? '')` coercion computeHash applies. -/
theorem c5_amended_fingerprint_sensitivity :
    (∀ (ws : List WorkItem) (specs : List GroupSpec) (i : Nat) (f : String) (v : FieldValue),
        f ∉ specs.map GroupSpec.field →
        computeHash (updateRecordField ws i f v) specs = computeHash ws specs) ∧
    (∀ (ws : List WorkItem) (specs : List GroupSpec) (i : Nat) (f : String) (v : FieldValue)
        (hi : i < ws.length),
        f ∈ specs.map GroupSpec.field →
        jsToStringCo v ≠ jsToStringCo (fieldLookup (ws.get ⟨i, hi⟩).fields f) →
        computeHash (updateRecordField ws i f v) specs ≠ computeHash ws specs) ∧
    (∀ (ws ws2 : List WorkItem) (specs : List GroupSpec),
        ws.length ≠ ws2.length →
        computeHash ws specs ≠ computeHash ws2 specs) := by
  refine ⟨?_, ?_, ?_⟩
  · intro ws specs i f v hf
    unfold computeHash
    congr 1
    simp only [computeHashData]
    rw [updateRecordField_map_id]
    have hh : ∀ wi : WorkItem,
        (fun wi : WorkItem => jsJoin "|" ((specs.map GroupSpec.field).map
          (fun f2 => jsToStringCo (fieldLookup wi.fields f2)))) (setWIField wi f v) =
        (fun wi : WorkItem => jsJoin "|" ((specs.map GroupSpec.field).map
          (fun f2 => jsToStringCo (fieldLookup wi.fields f2)))) wi := by
      intro wi
      simp only [setWIField]
      congr 1
      apply List.map_congr_left
      intro f2 hf2
      have hne2 : f2 ≠ f := fun hEq => hf (hEq ▸ hf2)
      rw [fieldLookup_setField_ne _ _ hne2]
    rw [updateRecordField_map_congr ws i f v _ hh]
  · intro ws specs i f v hi hf hne heq
    have h2 : (computeHashData (updateRecordField ws i f v) specs).2 =
        (computeHashData ws specs).2 := jsonStringifyHash_snd_inj _ _ heq
    simp only [computeHashData] at h2
    have hidx := congrArg (fun l => l[i]?) h2
    simp only [List.getElem?_map, updateRecordField_getElem] at hidx
    have hws : ws[i]? = some (ws.get ⟨i, hi⟩) := by
      rw [List.getElem?_eq_getElem hi]
      rfl
    rw [hws] at hidx
    simp only [Option.map_some, Option.map_some'] at hidx
    have hjoin := Option.some.inj hidx
    simp only [setWIField] at hjoin
    exact jsJoin_maps_ne "|"
      (fun f2 => jsToStringCo (fieldLookup (setField (ws.get ⟨i, hi⟩).fields f v) f2))
      (fun f2 => jsToStringCo (fieldLookup (ws.get ⟨i, hi⟩).fields f2)) f
      (fun x hx => by
        show jsToStringCo (fieldLookup (setField (ws.get ⟨i, hi⟩).fields f v) x) =
          jsToStringCo (fieldLookup (ws.get ⟨i, hi⟩).fields x)
        rw [fieldLookup_setField_ne _ _ hx])
      (by
        show jsToStringCo (fieldLookup (setField (ws.get ⟨i, hi⟩).fields f v) f) ≠
          jsToStringCo (fieldLookup (ws.get ⟨i, hi⟩).fields f)
        rw [fieldLookup_setField_self]
        exact hne)
      (specs.map GroupSpec.field) hf hjoin
  · intro ws ws2 specs hlen heq
    have h2 : (computeHashData ws specs).2 = (computeHashData ws2 specs).2 :=
      jsonStringifyHash_snd_inj _ _ heq
    have h3 := congrArg List.length h2
    rw [computeHashData_snd_length, computeHashData_snd_length] at h3
    exact hlen h3

/-- C5 amended, witness: an untracked-field change keeps the hash; a
tracked change with a different coerced string, and a record removal,
change the fingerprint string. -/
theorem c5_amended_witness :
    computeHash (updateRecordField [hashWi1] 0 "g" (.vStr "zzz")) hashSpecs =
        computeHash [hashWi1] hashSpecs ∧
      computeHash (updateRecordField [hashWi1] 0 "f" (.vStr "b")) hashSpecs ≠
        computeHash [hashWi1] hashSpecs ∧
      computeHash [hashWi1] hashSpecs ≠ computeHash [] hashSpecs :=
  ⟨c5_amended_fingerprint_sensitivity.1 [hashWi1] hashSpecs 0 "g" (.vStr "zzz") (by decide),
   c5_amended_fingerprint_sensitivity.2.1 [hashWi1] hashSpecs 0 "f" (.vStr "b") (by decide)
     (by decide) (by decide),
   c5_amended_fingerprint_sensitivity.2.2 [hashWi1] [] hashSpecs (by decide)⟩
